import Mathlib

/-!
# tgc2: a verification development

Shallow embedding of `tgc2.h` (handles, object headers, `gc_new_meta`, casts,
explicit deletion, the class trampoline, the container enumerators and the
intrusive list), with the properties proved about them.  Functions that tgc2.h
declares and that are defined outside it are marked as modelled from the design
document.

Conventions.
* Pointers are natural numbers; `0` is `nullptr`.
* Stateful code is explicit state passing.
* Loops of the source are recursive functions; where a loop needs fuel, the
  fuel that is passed is shown to be sufficient.
-/

namespace tgc2

/-! ## Part I: definitions -/

/-! ### `gc_new_meta` (tgc2.h, lines 433-453) -/

/-- Value carried by a C++ exception in flight (`throw 1` in the tests). -/
abbrev Exn := Nat

/-- Observable steps of `gc_new_meta`, in program order.  Slots are counted
from `meta->objPtr()` in units of `sizeof(T)`. -/
inductive Event where
  | newMeta (len : Nat)
  | construct (slot : Nat)
  | destruct (slot : Nat)
  | endNewMeta (m : Nat) (failed : Bool)
  deriving DecidableEq, Repr

/-- Is the event a call of the element destructor `p->~T()`? -/
def Event.isDestruct : Event → Bool
  | .destruct _ => true
  | _ => false

/-- Is the event a call of `endNewMeta`? -/
def Event.isEndNewMeta : Event → Bool
  | .endNewMeta _ _ => true
  | _ => false

/-- The loop inside `try`: `for (; i < len; i++, p++) new (p) T(args...)`.
`ctor p` is the exception raised by the constructor run at slot `p`, if any.
Returns the values of `i` and `p` when the loop is left, the trace, and the
exception in flight.  The first argument is fuel. -/
def constructLoop (ctor : Nat → Option Exn) (len : Nat) :
    Nat → Nat → Nat → List Event → Nat × Nat × List Event × Option Exn
  | 0, i, p, tr => (i, p, tr, none)
  | fuel + 1, i, p, tr =>
    if i < len then
      match ctor p with
      | some e => (i, p, tr ++ [Event.construct p], some e)
      | none => constructLoop ctor len fuel (i + 1) (p + 1) (tr ++ [Event.construct p])
    else (i, p, tr, none)

/-- The loop inside `catch (...)`:
`for (auto j = i; j > 0; j--, p--) { p->~T(); }`. -/
def unwindLoop : Nat → Nat → List Event → Nat × List Event
  | 0, p, tr => (p, tr)
  | j + 1, p, tr => unwindLoop j (p - 1) (tr ++ [Event.destruct p])

/-- `gc_new_meta<T>(len, args...)`.  `newMeta` is the result of
`cls->newMeta(len)` (defined outside tgc2.h): a header, or the failure it
propagates.  The result is the trace and either the returned header or the
exception that reaches the caller. -/
def gc_new_meta (newMeta : Nat → Except Exn Nat) (ctor : Nat → Option Exn) (len : Nat) :
    List Event × Except Exn Nat :=
  match newMeta len with
  | .error e => ([Event.newMeta len], .error e)
  | .ok m =>
    match constructLoop ctor len len 0 0 [Event.newMeta len] with
    | (i, p, tr, some e) => ((unwindLoop i p tr).2 ++ [Event.endNewMeta m true], .error e)
    | (_, _, tr, none) => (tr ++ [Event.endNewMeta m false], .ok m)

/-- `gc_new_array<T>(len, args...)`: `return gc_new_meta<T>(len, args...)`. -/
def gc_new_array (newMeta : Nat → Except Exn Nat) (ctor : Nat → Option Exn) (len : Nat) :
    List Event × Except Exn Nat :=
  gc_new_meta newMeta ctor len

/-- The slots on which the element destructor was run, in the order of the calls. -/
def destructedSlots (tr : List Event) : List Nat :=
  tr.filterMap fun ev => match ev with
    | .destruct s => some s
    | _ => none

/-- The slots at which a constructor was entered, in the order of the calls. -/
def constructedSlots (tr : List Event) : List Nat :=
  tr.filterMap fun ev => match ev with
    | .construct s => some s
    | _ => none

/-- The constructor of the test `testException`: the `len`-th construction throws `1`. -/
def testExceptionCtor (len : Nat) (slot : Nat) : Option Exn :=
  if slot + 1 = len then some 1 else none

/-! ### Handles: `PtrBase`, `GcPtr` (tgc2.h, lines 260-342) -/

/-- `PtrBase`: the two pointer fields of a handle. -/
structure PtrBase where
  meta : Nat
  owner : Nat
  deriving DecidableEq, Repr

/-- `PtrBase::isRoot`: `!owner`. -/
def PtrBase.isRoot (p : PtrBase) : Bool := p.owner == 0

/-- `ObjMeta::objPtr`: `(char*)this + sizeof(ObjMeta)`. -/
def objPtr (sizeofObjMeta : Nat) (this : Nat) : Nat := this + sizeofObjMeta

/-- `GcPtr::ptr`: `meta ? (T*)meta->objPtr() : nullptr`. -/
def GcPtr.ptr (sizeofObjMeta : Nat) (p : PtrBase) : Nat :=
  if p.meta ≠ 0 then objPtr sizeofObjMeta p.meta else 0

/-- The error kinds of the design document (section 7). -/
inductive Failure where
  | AllocFailure
  | ConstructorFailure
  | NullDeref
  | MissingHeader
  deriving DecidableEq, Repr

/-- `GcPtr::operator->`: `return ptr();`.  The outcome type leaves room for a
failure; the source has no failing path. -/
def GcPtr.arrow (sizeofObjMeta : Nat) (p : PtrBase) : Except Failure Nat :=
  .ok (GcPtr.ptr sizeofObjMeta p)

/-- `GcPtr::operator*`: `return *ptr();`.  The result is the address the
returned reference designates; no check is made before it is formed. -/
def GcPtr.star (sizeofObjMeta : Nat) (p : PtrBase) : Except Failure Nat :=
  .ok (GcPtr.ptr sizeofObjMeta p)

/-- `GcPtr::operator==`: `ptr() == r.ptr()`. -/
def GcPtr.eq (sizeofObjMeta : Nat) (a b : PtrBase) : Bool :=
  GcPtr.ptr sizeofObjMeta a == GcPtr.ptr sizeofObjMeta b

/-- `GcPtr::operator!=`: `ptr() != r.ptr()`. -/
def GcPtr.ne (sizeofObjMeta : Nat) (a b : PtrBase) : Bool :=
  GcPtr.ptr sizeofObjMeta a != GcPtr.ptr sizeofObjMeta b

/-! ### Object headers and the heap (tgc2.h, lines 135-162 and 374-423) -/

/-- `ObjMeta::Color`. -/
inductive Color where
  | White
  | Black
  deriving DecidableEq, Repr

/-- `ObjMeta`: the header of a managed allocation.  `refCntFromRoot` is an
`unsigned short`, `scanCountInNewGen` a 3-bit field.  The intrusive links
`gen` are represented by the generation lists of the heap. -/
structure ObjMeta where
  klass : Nat
  arrayLength : Nat
  refCntFromRoot : Nat
  color : Color
  scanCountInNewGen : Nat
  isOld : Bool
  deriving DecidableEq, Repr

/-- `ObjMeta::ObjMeta(ClassMeta* c, char* o, size_t n)`. -/
def ObjMeta.new (c n : Nat) : ObjMeta :=
  { klass := c, arrayLength := n, refCntFromRoot := 0, color := Color.White,
    scanCountInNewGen := 0, isOld := false }

/-- `ObjMeta::isRoot`: `refCntFromRoot > 0`. -/
def ObjMeta.isRoot (o : ObjMeta) : Bool := decide (0 < o.refCntFromRoot)

/-- Largest value of the `unsigned short` counter `refCntFromRoot`. -/
def refCntMax : Nat := 65535

/-- The memory the library works on, with the members of `Collector`.
`metas[m]` is the header at address `m` (slot `0` stands for `nullptr` and is
never used as a header), `ptrs[p]` is the handle `p`, `enumPtrs m` are the
handles the Field Enumerator of header `m` yields, in order.  Two fields are
ghosts: `dctorLog` lists the headers whose element destructors were run, and
`barrierLog` the handles on which `writeBarrier` was run, both in order. -/
structure Heap where
  metas : List ObjMeta
  ptrs : List PtrBase
  enumPtrs : Nat → List Nat
  intergenerationalPtrs : List Nat
  delayIntergenerationalPtrs : List Nat
  newGen : List Nat
  oldGen : List Nat
  unrefs : List (Nat × Nat)
  creatingObjs : List Nat
  scanCountToOldGen : Nat
  oldGenObjCntToFullGc : Nat
  dctorLog : List Nat
  barrierLog : List Nat

/-- `p->meta` (`PtrBase::getMeta`), null when there is no handle `p`. -/
def Heap.metaOf (s : Heap) (p : Nat) : Nat :=
  match s.ptrs[p]? with
  | some h => h.meta
  | none => 0

/-- `p->owner`, null when there is no handle `p`. -/
def Heap.ownerOf (s : Heap) (p : Nat) : Nat :=
  match s.ptrs[p]? with
  | some h => h.owner
  | none => 0

/-- Apply `f` to the header at address `m`. -/
def Heap.modifyMeta (s : Heap) (m : Nat) (f : ObjMeta → ObjMeta) : Heap :=
  match s.metas[m]? with
  | some o => { s with metas := s.metas.set m (f o) }
  | none => s

/-- The store `p->meta = n`. -/
def Heap.setMeta (s : Heap) (p n : Nat) : Heap :=
  match s.ptrs[p]? with
  | some h => { s with ptrs := s.ptrs.set p { h with meta := n } }
  | none => s

/-- Insertion into an `unordered_set` kept as a list. -/
def setInsert (x : Nat) (l : List Nat) : List Nat :=
  if x ∈ l then l else l ++ [x]

/-- Modelled from the spec: the root increment of `PtrBase::writeBarrier`
(defined outside tgc2.h), rule 1 of the write barrier, on the saturating
counter `refCntFromRoot`. -/
def Heap.incRef (s : Heap) (m : Nat) : Heap :=
  s.modifyMeta m fun o =>
    { o with refCntFromRoot := if o.refCntFromRoot < refCntMax then o.refCntFromRoot + 1
                               else o.refCntFromRoot }

/-- Is the header at `m` in the old generation (`isOld`)? -/
def Heap.isOldMeta (s : Heap) (m : Nat) : Bool :=
  match s.metas[m]? with
  | some o => o.isOld
  | none => false

/-- Modelled from the spec: `PtrBase::writeBarrier()` is declared in tgc2.h, as
a member function without parameters, and defined outside it.  `GcPtr::reset`
runs it after the store `meta = n`, on a handle that holds `meta` and `owner`
only: the `meta` that the handle held before the store is not among the values
the call can read.  Of the four rules of the spec (section 4.1), the three that
read the handle as it is after the store are modelled:
1. root handle, new `meta` non-null: increment its `refCntFromRoot`;
3. handle inside an old owner, new `meta` young: insert the handle into the
   remembered set;
4. handle inside the owner on top of the under-construction stack: insert the
   handle into the delayed remembered set.
Rule 2 (decrement the counter of the previous `meta`) is worded over a value
that the call does not receive, and is not modelled.  Each run on a handle is
recorded in `barrierLog`. -/
def writeBarrier (s : Heap) (p : Nat) : Heap :=
  match s.ptrs[p]? with
  | none => s
  | some h =>
    let s0 := { s with barrierLog := s.barrierLog ++ [p] }
    if h.owner = 0 then
      if h.meta ≠ 0 then s0.incRef h.meta else s0
    else
      let s1 :=
        if s0.isOldMeta h.owner = true ∧ h.meta ≠ 0 ∧ s0.isOldMeta h.meta = false then
          { s0 with intergenerationalPtrs := setInsert p s0.intergenerationalPtrs }
        else s0
      if s1.creatingObjs.head? = some h.owner then
        { s1 with delayIntergenerationalPtrs := setInsert p s1.delayIntergenerationalPtrs }
      else s1

/-- `GcPtr::reset(ObjMeta* n)`: `meta = n; writeBarrier();`. -/
def GcPtr.reset (s : Heap) (p n : Nat) : Heap :=
  writeBarrier (s.setMeta p n) p

/-- `GcPtr::operator=(nullptr_t)`: `meta = 0; return *this;`. -/
def GcPtr.assignNull (s : Heap) (p : Nat) : Heap :=
  s.setMeta p 0

/-- `GcPtr::operator=(const GcPtr& r)` and the converting
`operator=(const GcPtr<U>& r)`: `reset(r.meta); return *this;`. -/
def GcPtr.assign (s : Heap) (dst src : Nat) : Heap :=
  GcPtr.reset s dst (s.metaOf src)

/-- `GcPtr::operator=(GcPtr&& r)`: `reset(r.meta); r = nullptr; return *this;`. -/
def GcPtr.moveAssign (s : Heap) (dst src : Nat) : Heap :=
  GcPtr.assignNull (GcPtr.reset s dst (s.metaOf src)) src

/-- Modelled from the spec: the default constructor `PtrBase::PtrBase()` is
declared in tgc2.h and defined outside it.  The new handle has a null `meta`;
its owner is the header on top of the under-construction stack, with which it
registers itself (so that the Field Enumerator of that header yields it), or
null when no object is under construction.  Returns the heap and the new handle. -/
def PtrBase.construct (s : Heap) : Heap × Nat :=
  let owner := s.creatingObjs.head?.getD 0
  let p := s.ptrs.length
  ({ s with
      ptrs := s.ptrs ++ [{ meta := 0, owner := owner }],
      enumPtrs := fun m =>
        if m = owner ∧ owner ≠ 0 then s.enumPtrs m ++ [p] else s.enumPtrs m }, p)

/-- `GcPtr(const GcPtr& r)` and the converting `GcPtr(const GcPtr<U>& r)`:
base constructor, then `reset(r.meta)`. -/
def GcPtr.copyConstruct (s : Heap) (src : Nat) : Heap × Nat :=
  let sp := PtrBase.construct s
  (GcPtr.reset sp.1 sp.2 (sp.1.metaOf src), sp.2)

/-- Modelled from the spec: `ObjMeta::destroy` is declared in tgc2.h and
defined outside it.  Destroying a header runs the element destructors through
the class trampoline (recorded in `dctorLog`), unlinks the header from its
generation list and frees the raw bytes. -/
def ObjMeta.destroy (s : Heap) (m : Nat) : Heap :=
  { s with
    dctorLog := s.dctorLog ++ [m],
    newGen := s.newGen.filter (fun x => x != m),
    oldGen := s.oldGen.filter (fun x => x != m) }

/-- The statement `c = nullptr` for a handle of class `gc<T>`.  `gc<T>`
declares no assignment operator, so its implicitly declared copy and move
assignment operators hide `GcPtr::operator=(nullptr_t)`: `nullptr` is converted
to a temporary through `gc(nullptr_t)`, and the temporary is move-assigned,
which runs `GcPtr::operator=(GcPtr&&)`.  The temporary is null when it is
destroyed; its slot stays in the handle table as a null handle. -/
def gc.assignNull (s : Heap) (c : Nat) : Heap :=
  GcPtr.moveAssign (PtrBase.construct s).1 c (PtrBase.construct s).2

/-- The counter of header `x`, if there is such a header. -/
def Heap.refCntOf (s : Heap) (x : Nat) : Option Nat :=
  (s.metas[x]?).map fun o => o.refCntFromRoot

/-- A heap with one young header at address 1, counted once, and one root
handle (handle 0) bound to it. -/
def oneRootedHeap : Heap :=
  { metas := [ObjMeta.new 0 0, { ObjMeta.new 1 1 with refCntFromRoot := 1 }],
    ptrs := [{ meta := 1, owner := 0 }],
    enumPtrs := fun _ => [],
    intergenerationalPtrs := [],
    delayIntergenerationalPtrs := [],
    newGen := [1],
    oldGen := [],
    unrefs := [],
    creatingObjs := [],
    scanCountToOldGen := 2,
    oldGenObjCntToFullGc := 102400,
    dctorLog := [],
    barrierLog := [] }

/-- A heap with two young headers: header 1 is referenced by the root handle
0, header 2 by the handle 1 embedded in header 1; handle 2 is a null root handle. -/
def twoObjectHeap : Heap :=
  { metas := [ObjMeta.new 0 0, { ObjMeta.new 1 1 with refCntFromRoot := 1 }, ObjMeta.new 1 1],
    ptrs := [{ meta := 1, owner := 0 }, { meta := 2, owner := 1 }, { meta := 0, owner := 0 }],
    enumPtrs := fun m => if m = 1 then [1] else [],
    intergenerationalPtrs := [],
    delayIntergenerationalPtrs := [],
    newGen := [1, 2],
    oldGen := [],
    unrefs := [],
    creatingObjs := [],
    scanCountToOldGen := 2,
    oldGenObjCntToFullGc := 102400,
    dctorLog := [],
    barrierLog := [] }

/-- `gc_static_pointer_cast<To>(from)`: `return from;`.  The returned `gc<To>` is
built from `from` by the converting copy constructor, that is by
`reset(from.meta)` on a fresh handle.  Returns the heap and the new handle. -/
def gc_static_pointer_cast (s : Heap) (src : Nat) : Heap × Nat :=
  GcPtr.copyConstruct s src

/-- The member functions named `reset` that a `gc<To>` has, each given by the
number of its parameters: `GcPtr::reset(ObjMeta* n)` (line 335) is the only
declaration; `gc` and `PtrBase` add none, and it has no default argument. -/
def GcPtr.resetArities : List Nat := [1]

/-- The number of arguments of the call
`r.reset(dynamic_cast<To*>(from.operator->()), from.getMeta())`, the one
statement of `gc_dynamic_pointer_cast` that gives `r` a referent (line 479). -/
def gc_dynamic_pointer_cast.resetCallArity : Nat := 2

/-- The declarations a call can select by arity: those that take as many
parameters as the call passes arguments. -/
def viableByArity (arities : List Nat) (args : Nat) : List Nat :=
  arities.filter (fun n => n == args)

/-! ### Ordering of handles (tgc2.h, line 331) -/

/-- `GcPtr::operator<`: `*ptr() < *r.ptr()`.  `deref` reads the referent stored
at a payload address and `lt` is the referent type's own `operator<`. -/
def GcPtr.lt {V : Type} (sizeofObjMeta : Nat) (deref : Nat → V) (lt : V → V → Bool)
    (a b : PtrBase) : Bool :=
  lt (deref (GcPtr.ptr sizeofObjMeta a)) (deref (GcPtr.ptr sizeofObjMeta b))

/-! ### The class trampoline and the allocator hooks (tgc2.h, lines 195-250) -/

/-- `ClassMeta::MemRequest`. -/
inductive ClassMeta.MemRequest where
  | Dctor
  | NewPtrEnumerator
  deriving DecidableEq, Repr

/-- The loop of the `Dctor` case,
`for (size_t i = 0; i < meta->arrayLength; i++, p++) p->~T();`, from the state
`(i, p)`; `dctors` lists the addresses a destructor has run on so far, in call
order.  The first argument bounds the number of iterations. -/
def Holder.dctorLoop (arrayLength sizeofT : Nat) : Nat → Nat → Nat → List Nat → List Nat
  | 0, _, _, dctors => dctors
  | fuel + 1, i, p, dctors =>
    if i < arrayLength then
      Holder.dctorLoop arrayLength sizeofT fuel (i + 1) (p + sizeofT) (dctors ++ [p])
    else dctors

/-- `Holder<T>::MemHandler(cls, r, param)`, with `param` the address of the
header `o`.  The result is the list of addresses a destructor of `T` was run on,
in call order, and the returned pointer.  For `NewPtrEnumerator` the pointer is
that of the enumerator built by `new PtrEnumerator<T>(meta)`. -/
def Holder.MemHandler (sizeofObjMeta sizeofT enumerator : Nat)
    (r : ClassMeta.MemRequest) (param : Nat) (o : ObjMeta) : List Nat × Nat :=
  match r with
  | .Dctor =>
    (Holder.dctorLoop o.arrayLength sizeofT o.arrayLength 0 (objPtr sizeofObjMeta param) [], 0)
  | .NewPtrEnumerator => ([], enumerator)

/-- Which allocator a call reached, and with what argument: the hook stored
at function pointer `fn`, or the host `new char[sz]` or `delete[]`. -/
inductive AllocCall where
  | hook (fn : Nat) (arg : Nat)
  | hostNew (sz : Nat)
  | hostDelete (p : Nat)
  deriving DecidableEq, Repr

/-- `ClassMeta::callAlloc`: `alloc ? (char*)alloc(sz) : new char[sz]`.  `alloc` is
the static function pointer (0 when unset), `call f x` the value the function at
`f` returns on `x`, `hostNew` the host allocator.  Returns the call made and the
pointer obtained. -/
def ClassMeta.callAlloc (alloc : Nat) (call : Nat → Nat → Nat) (hostNew : Nat → Nat)
    (sz : Nat) : AllocCall × Nat :=
  if alloc ≠ 0 then (.hook alloc sz, call alloc sz) else (.hostNew sz, hostNew sz)

/-- `ClassMeta::callDealloc`: `dealloc ? dealloc(p) : delete[](char*)(p)`.
Returns the call made. -/
def ClassMeta.callDealloc (dealloc : Nat) (p : Nat) : AllocCall :=
  if dealloc ≠ 0 then .hook dealloc p else .hostDelete p

/-- Modelled from the spec: `ClassMeta::newMeta` is declared in tgc2.h and
defined outside it.  Step 1 of allocation (section 4.4) requests
`sizeof(Header) + n × klass.size` bytes from the configured allocator. -/
def ClassMeta.newMetaRequest (alloc : Nat) (call : Nat → Nat → Nat) (hostNew : Nat → Nat)
    (sizeofObjMeta size objCnt : Nat) : AllocCall × Nat :=
  ClassMeta.callAlloc alloc call hostNew (sizeofObjMeta + objCnt * size)

/-- Modelled from the spec: `ObjMeta::operator delete` is declared in tgc2.h and
defined outside it.  Destroying a header "frees the raw bytes" (section 6),
through the configured deallocator. -/
def ObjMeta.operatorDelete (dealloc : Nat) (c : Nat) : AllocCall :=
  ClassMeta.callDealloc dealloc c

/-! ### Container enumerators (tgc2.h, lines 543-722) -/

/-- What a call of `getNext` hands back: the address of a stored handle,
`nullptr`, or nothing defined because the iterator was read at `end()`. -/
inductive Fetched where
  | handle (addr : Nat)
  | null
  | pastEnd
  deriving DecidableEq, Repr

/-- `ContainerPtrEnumerator<C>`: the container `o`, given by its entries in
iteration order, and the iterator `it`, given by its position in that order
(`o.length` is `o->end()`). -/
structure ContainerPtrEnumerator (α : Type) where
  o : List α
  it : Nat

/-- Constructor of `ContainerPtrEnumerator`: `it(o->begin())`. -/
def ContainerPtrEnumerator.new {α : Type} (o : List α) : ContainerPtrEnumerator α :=
  { o := o, it := 0 }

/-- `ContainerPtrEnumerator::hasNext`: `it != o->end()`. -/
def ContainerPtrEnumerator.hasNext {α : Type} (e : ContainerPtrEnumerator α) : Bool :=
  e.it != e.o.length

/-- Reading through the iterator, `&*it` or `&it->second`: the address `addr`
takes from the entry under the iterator. -/
def ContainerPtrEnumerator.read {α : Type} (addr : α → Nat) (e : ContainerPtrEnumerator α) :
    Fetched :=
  match e.o[e.it]? with
  | some x => .handle (addr x)
  | none => .pastEnd

/-- Stepping the iterator, `it++` or `++it`. -/
def ContainerPtrEnumerator.advance {α : Type} (e : ContainerPtrEnumerator α) :
    ContainerPtrEnumerator α :=
  { e with it := e.it + 1 }

/-- An entry of a `map<K, gc<V>>` or `unordered_map<K, gc<V>>`: the key, and the
address of the mapped handle. -/
structure MapEntry where
  first : Nat
  second : Nat
  deriving DecidableEq, Repr

/-- `PtrEnumerator<vector<gc<T>>>::getNext`:
`return this->hasNext() ? &*this->it++ : nullptr;`.  A sequence is given by the
addresses of its stored handles. -/
def PtrEnumerator.vector.getNext (e : ContainerPtrEnumerator Nat) :
    Fetched × ContainerPtrEnumerator Nat :=
  if e.hasNext then (e.read id, e.advance) else (.null, e)

/-- `PtrEnumerator<deque<gc<T>>>::getNext`: `return &*this->it++;`. -/
def PtrEnumerator.deque.getNext (e : ContainerPtrEnumerator Nat) :
    Fetched × ContainerPtrEnumerator Nat :=
  (e.read id, e.advance)

/-- `PtrEnumerator<list<gc<T>>>::getNext`: `return &*this->it++;`. -/
def PtrEnumerator.list.getNext (e : ContainerPtrEnumerator Nat) :
    Fetched × ContainerPtrEnumerator Nat :=
  (e.read id, e.advance)

/-- `PtrEnumerator<set<gc<V>>>::getNext`: `return &*this->it++;`. -/
def PtrEnumerator.set.getNext (e : ContainerPtrEnumerator Nat) :
    Fetched × ContainerPtrEnumerator Nat :=
  (e.read id, e.advance)

/-- `PtrEnumerator<map<K, gc<V>>>::getNext`:
`auto* ret = &this->it->second; ++this->it; return ret;`. -/
def PtrEnumerator.map.getNext (e : ContainerPtrEnumerator MapEntry) :
    Fetched × ContainerPtrEnumerator MapEntry :=
  (e.read MapEntry.second, e.advance)

/-- `PtrEnumerator<unordered_map<K, gc<V>>>::getNext`:
`auto* ret = &this->it->second; ++this->it; return ret;`. -/
def PtrEnumerator.unordered_map.getNext (e : ContainerPtrEnumerator MapEntry) :
    Fetched × ContainerPtrEnumerator MapEntry :=
  (e.read MapEntry.second, e.advance)

/-- The results of `k` successive calls of `getNext`, in call order, and the
enumerator they leave. -/
def getNextCalls {α : Type}
    (getNext : ContainerPtrEnumerator α → Fetched × ContainerPtrEnumerator α) :
    Nat → ContainerPtrEnumerator α → List Fetched × ContainerPtrEnumerator α
  | 0, e => ([], e)
  | k + 1, e =>
    let r := getNext e
    let rest := getNextCalls getNext k r.2
    (r.1 :: rest.1, rest.2)

/-- The return type that a declaration of `getNext` names. -/
inductive GetNextReturn where
  | ptrBase
  | constPtrBase
  deriving DecidableEq, Repr

/-- `IPtrEnumerator::getNext` (line 172): `virtual PtrBase* getNext() = 0;`. -/
def IPtrEnumerator.getNext.returnType : GetNextReturn := .ptrBase

/-- `PtrEnumerator<vector<gc<T>>>::getNext` (line 567):
`PtrBase* getNext() override`. -/
def PtrEnumerator.vector.getNext.returnType : GetNextReturn := .ptrBase

/-- `PtrEnumerator<deque<gc<T>>>::getNext` (line 599):
`const PtrBase* getNext() override`. -/
def PtrEnumerator.deque.getNext.returnType : GetNextReturn := .constPtrBase

/-- `PtrEnumerator<list<gc<T>>>::getNext` (line 625):
`const PtrBase* getNext() override`. -/
def PtrEnumerator.list.getNext.returnType : GetNextReturn := .constPtrBase

/-- `PtrEnumerator<set<gc<V>>>::getNext` (line 721):
`const PtrBase* getNext() override`. -/
def PtrEnumerator.set.getNext.returnType : GetNextReturn := .constPtrBase

/-- `PtrEnumerator<map<K, gc<V>>>::getNext` (line 656):
`const PtrBase* getNext() override`. -/
def PtrEnumerator.map.getNext.returnType : GetNextReturn := .constPtrBase

/-- `PtrEnumerator<unordered_map<K, gc<V>>>::getNext` (line 692):
`const PtrBase* getNext() override`. -/
def PtrEnumerator.unordered_map.getNext.returnType : GetNextReturn := .constPtrBase

/-- May a member function that returns `derived` override a virtual function
that returns `base`?  The two return types are pointers to the same class, so
the override is well-formed when the pointee of `derived` is no more
const-qualified than the pointee of `base`. -/
def mayOverride (base derived : GetNextReturn) : Bool :=
  match base, derived with
  | .ptrBase, .constPtrBase => false
  | _, _ => true

/-! ### The intrusive list `helper::list` (tgc2.h, lines 62-130) -/

/-- `helper::list_slot<T>`: the two links a node carries. -/
structure helper.list_slot where
  prev : Nat
  next : Nat
  deriving DecidableEq, Repr

/-- `size_t` is 64 bits wide, as is an object pointer. -/
def sizeModulus : Nat := 2 ^ 64

/-- `helper::list<T, slot>`: the three members of the list object, together with
the memory of the nodes: `slot p` is `p->*slot`. -/
structure helper.list where
  m_first : Nat
  m_last : Nat
  m_size : Nat
  slot : Nat → helper.list_slot

/-- A list object as constructed: `m_first = nullptr`, `m_last = nullptr`,
`m_size = 0`, over node memory `slot`. -/
def helper.list.empty (slot : Nat → helper.list_slot) : helper.list :=
  { m_first := 0, m_last := 0, m_size := 0, slot := slot }

/-- `list::prev(p)`, read. -/
def helper.list.prev (l : helper.list) (p : Nat) : Nat := (l.slot p).prev

/-- `list::next(p)`, read. -/
def helper.list.next (l : helper.list) (p : Nat) : Nat := (l.slot p).next

/-- The store `prev(p) = v`. -/
def helper.list.setPrev (l : helper.list) (p v : Nat) : helper.list :=
  { l with slot := fun q => if q = p then { l.slot q with prev := v } else l.slot q }

/-- The store `next(p) = v`. -/
def helper.list.setNext (l : helper.list) (p v : Nat) : helper.list :=
  { l with slot := fun q => if q = p then { l.slot q with next := v } else l.slot q }

/-- `list::push_back(v)`. -/
def helper.list.push_back (l : helper.list) (v : Nat) : helper.list :=
  let l1 := if l.m_last ≠ 0 then l.setNext l.m_last v else { l with m_first := v }
  let l2 := l1.setPrev v l1.m_last
  let l3 := l2.setNext v 0
  { l3 with m_last := v, m_size := (l3.m_size + 1) % sizeModulus }

/-- `list::begin()`: an iterator at `m_first`. -/
def helper.list.begin (l : helper.list) : Nat := l.m_first

/-- `list::end()`: an iterator at `nullptr`. -/
def helper.list.end_ (_l : helper.list) : Nat := 0

/-- `list::size()`. -/
def helper.list.size (l : helper.list) : Nat := l.m_size

/-- `iterator::operator++`: `ptr = next(ptr)`. -/
def helper.list.iterator.incr (l : helper.list) (ptr : Nat) : Nat := l.next ptr

/-- The loop `for (auto it = p; it != end(); ++it)` visits exactly `xs`, in this
order. -/
def helper.list.TraversalFrom (l : helper.list) : Nat → List Nat → Prop
  | p, [] => p = l.end_
  | p, x :: xs =>
    p = x ∧ p ≠ l.end_ ∧ helper.list.TraversalFrom l (helper.list.iterator.incr l p) xs

/-- The forward traversal from `begin()` along `next` is `xs`. -/
def helper.list.Traversal (l : helper.list) (xs : List Nat) : Prop :=
  l.TraversalFrom l.begin xs

/-- The forward traversal run as a loop of at most `fuel` steps from `p`. -/
def helper.list.traverse (l : helper.list) : Nat → Nat → List Nat
  | 0, _ => []
  | fuel + 1, p =>
    if p ≠ l.end_ then p :: helper.list.traverse l fuel (helper.list.iterator.incr l p) else []

/-- Well-formedness of a list with forward traversal `xs`: the first element has
`prev = null`, the last element has `next = null`, `prev(next(x)) = x` for every
member `x` that is not the last, `m_last` is the final element of the traversal
from `m_first` (null when there is none), and `size()` is the number of elements
traversed. -/
def helper.list.WellFormed (l : helper.list) (xs : List Nat) : Prop :=
  l.Traversal xs ∧
  (∀ x, xs.head? = some x → l.prev x = 0) ∧
  (∀ x, xs.getLast? = some x → l.next x = 0) ∧
  (∀ x, x ∈ xs → xs.getLast? ≠ some x → l.prev (l.next x) = x) ∧
  l.m_last = xs.getLast?.getD 0 ∧
  l.size = xs.length

/-- Node addresses are object pointers: below `2 ^ 64`. -/
def Addressable (xs : List Nat) : Prop := ∀ x ∈ xs, x < sizeModulus

/-- Node memory with every link null. -/
def helper.list.nullSlots : Nat → helper.list_slot := fun _ => { prev := 0, next := 0 }

/-- The list obtained from the empty one by `push_back(16)` and `push_back(32)`. -/
def twoNodeList : helper.list :=
  ((helper.list.empty helper.list.nullSlots).push_back 16).push_back 32

/-- The first statement of `list::remove(v)`:
`if (v == m_first) m_first = next(m_first); else if (auto p = prev(v)) next(p) = next(v);`. -/
def helper.list.removeFromPrev (l : helper.list) (v : Nat) : helper.list :=
  if v = l.m_first then { l with m_first := l.next l.m_first }
  else if l.prev v ≠ 0 then l.setNext (l.prev v) (l.next v)
  else l

/-- The second statement of `list::remove(v)`:
`if (v == m_last) m_last = prev(m_last); else if (auto n = next(v)) prev(n) = prev(v);`. -/
def helper.list.removeFromNext (l : helper.list) (v : Nat) : helper.list :=
  if v = l.m_last then { l with m_last := l.prev l.m_last }
  else if l.next v ≠ 0 then l.setPrev (l.next v) (l.prev v)
  else l

/-- `list::remove(v)`: its two statements, then `m_size--`, which on a `size_t`
wraps from 0 to `2 ^ 64 - 1`. -/
def helper.list.remove (l : helper.list) (v : Nat) : helper.list :=
  let l2 := (l.removeFromPrev v).removeFromNext v
  { l2 with m_size := if l2.m_size = 0 then sizeModulus - 1 else l2.m_size - 1 }

/-- `list::erase(it)`: `auto* o = *it; auto n = next(o); remove(o); return n;`.
Returns the list and the iterator. -/
def helper.list.erase (l : helper.list) (it : Nat) : helper.list × Nat :=
  let o := it
  let n := l.next o
  (l.remove o, n)

/-- A loop over the list that, at each element, either erases it or steps over
it: `for (it = begin(); it != end();) { visit(*it); if (eraseIt(*it)) it =
erase(it); else ++it; }`.  The result is the list left and the elements visited,
in order.  The first argument bounds the number of iterations. -/
def helper.list.eraseOrAdvanceLoop (eraseIt : Nat → Bool) :
    Nat → helper.list → Nat → List Nat → helper.list × List Nat
  | 0, l, _, visited => (l, visited)
  | fuel + 1, l, it, visited =>
    if it ≠ l.end_ then
      if eraseIt it then
        helper.list.eraseOrAdvanceLoop eraseIt fuel (l.erase it).1 (l.erase it).2
          (visited ++ [it])
      else
        helper.list.eraseOrAdvanceLoop eraseIt fuel l (helper.list.iterator.incr l it)
          (visited ++ [it])
    else (l, visited)

/-- Well-formedness in the form the proofs use: the members are distinct and
not null, `m_first` and `m_last` are the two ends, `m_size` is the length, and
every member has the member after it as `next` and the member before it as
`prev`, null at the ends. -/
def helper.list.Linked (l : helper.list) (xs : List Nat) : Prop :=
  xs.Nodup ∧ (∀ x ∈ xs, x ≠ 0) ∧
  l.m_first = xs.head?.getD 0 ∧ l.m_last = xs.getLast?.getD 0 ∧ l.m_size = xs.length ∧
  ∀ (as : List Nat) (v : Nat) (bs : List Nat), xs = as ++ v :: bs →
    l.next v = bs.head?.getD 0 ∧ l.prev v = as.getLast?.getD 0

/-- The list obtained from the empty one by `push_back` of 16, 32 and 48. -/
def threeNodeList : helper.list :=
  (((helper.list.empty helper.list.nullSlots).push_back 16).push_back 32).push_back 48

/-! ## Part II: lemmas and theorems -/

/-! ### `gc_new_meta` -/

theorem constructLoop_all_ok (ctor : Nat → Option Exn) (len : Nat) :
    ∀ (fuel a : Nat) (tr : List Event), a ≤ len → len - a ≤ fuel →
      (∀ j, a ≤ j → j < len → ctor j = none) →
      constructLoop ctor len fuel a a tr
        = (len, len, tr ++ (List.range' a (len - a)).map Event.construct, none) := by
  intro fuel
  induction fuel with
  | zero =>
    intro a tr hle hfuel _
    have h : a = len := by omega
    subst h
    simp [constructLoop]
  | succ n ih =>
    intro a tr hle hfuel hok
    by_cases hlt : a < len
    · have hc : ctor a = none := hok a (Nat.le_refl a) hlt
      have hstep : len - a = (len - (a + 1)) + 1 := by omega
      rw [constructLoop, if_pos hlt, hc]
      simp only []
      rw [ih (a + 1) (tr ++ [Event.construct a]) (by omega) (by omega)
        (fun j h1 h2 => hok j (by omega) h2), hstep, List.range'_succ]
      simp
    · have h : a = len := by omega
      subst h
      rw [constructLoop, if_neg hlt]
      simp

theorem constructLoop_fails (ctor : Nat → Option Exn) (len i : Nat) (e : Exn)
    (hi : i < len) (he : ctor i = some e) :
    ∀ (fuel a : Nat) (tr : List Event), a ≤ i → len - a ≤ fuel →
      (∀ j, a ≤ j → j < i → ctor j = none) →
      constructLoop ctor len fuel a a tr
        = (i, i, tr ++ (List.range' a (i - a + 1)).map Event.construct, some e) := by
  intro fuel
  induction fuel with
  | zero =>
    intro a tr hle hfuel _
    omega
  | succ n ih =>
    intro a tr hle hfuel hok
    have hlt : a < len := by omega
    by_cases hai : a = i
    · subst hai
      rw [constructLoop, if_pos hlt, he]
      simp
    · have hc : ctor a = none := hok a (Nat.le_refl a) (by omega)
      have hstep : i - a + 1 = (i - (a + 1) + 1) + 1 := by omega
      rw [constructLoop, if_pos hlt, hc]
      simp only []
      rw [ih (a + 1) (tr ++ [Event.construct a]) (by omega) (by omega)
        (fun j h1 h2 => hok j (by omega) h2), hstep]
      simp [List.range'_succ]

theorem unwindLoop_trace :
    ∀ (j p : Nat) (tr : List Event),
      (unwindLoop j p tr).2 = tr ++ (List.range j).map (fun k => Event.destruct (p - k)) := by
  intro j
  induction j with
  | zero => intro p tr; simp [unwindLoop]
  | succ n ih =>
    intro p tr
    rw [unwindLoop, ih, List.range_succ_eq_map]
    simp [Nat.sub_sub, Nat.add_comm]

theorem gc_new_meta_of_failure (newMeta : Nat → Except Exn Nat) (ctor : Nat → Option Exn)
    (len i m : Nat) (e : Exn) (hm : newMeta len = .ok m) (hi : i < len)
    (hok : ∀ j, j < i → ctor j = none) (he : ctor i = some e) :
    gc_new_meta newMeta ctor len
      = ([Event.newMeta len] ++ (List.range' 0 (i + 1)).map Event.construct
          ++ (List.range i).map (fun k => Event.destruct (i - k))
          ++ [Event.endNewMeta m true], .error e) := by
  have h := constructLoop_fails ctor len i e hi he len 0 [Event.newMeta len]
    (Nat.zero_le i) (by omega) (fun j _ h2 => hok j h2)
  simp only [gc_new_meta, hm, h, unwindLoop_trace, Nat.sub_zero]

theorem gc_new_meta_of_success (newMeta : Nat → Except Exn Nat) (ctor : Nat → Option Exn)
    (len m : Nat) (hm : newMeta len = .ok m) (hok : ∀ j, j < len → ctor j = none) :
    gc_new_meta newMeta ctor len
      = ([Event.newMeta len] ++ (List.range' 0 len).map Event.construct
          ++ [Event.endNewMeta m false], .ok m) := by
  have h := constructLoop_all_ok ctor len len 0 [Event.newMeta len]
    (Nat.zero_le len) (by omega) (fun j _ h2 => hok j h2)
  simp only [gc_new_meta, hm, h, Nat.sub_zero]

theorem gc_new_meta_of_newMeta_failure (newMeta : Nat → Except Exn Nat)
    (ctor : Nat → Option Exn) (len : Nat) (e : Exn) (hm : newMeta len = .error e) :
    gc_new_meta newMeta ctor len = ([Event.newMeta len], .error e) := by
  simp only [gc_new_meta, hm]

theorem filter_isDestruct_construct (l : List Nat) :
    (l.map Event.construct).filter Event.isDestruct = [] := by
  induction l with
  | nil => rfl
  | cons a t ih => simp [Event.isDestruct]

theorem filter_isDestruct_destruct (f : Nat → Nat) (l : List Nat) :
    (l.map (fun k => Event.destruct (f k))).filter Event.isDestruct
      = l.map (fun k => Event.destruct (f k)) := by
  induction l with
  | nil => rfl
  | cons a t ih => simp [Event.isDestruct]

theorem filter_isEndNewMeta_construct (l : List Nat) :
    (l.map Event.construct).filter Event.isEndNewMeta = [] := by
  induction l with
  | nil => rfl
  | cons a t ih => simp [Event.isEndNewMeta]

theorem filter_isEndNewMeta_destruct (f : Nat → Nat) (l : List Nat) :
    (l.map (fun k => Event.destruct (f k))).filter Event.isEndNewMeta = [] := by
  induction l with
  | nil => rfl
  | cons a t ih => simp [Event.isEndNewMeta]

theorem destructedSlots_construct (l : List Nat) :
    destructedSlots (l.map Event.construct) = [] := by
  induction l with
  | nil => rfl
  | cons a t ih => simp [destructedSlots]

theorem destructedSlots_destruct (f : Nat → Nat) (l : List Nat) :
    destructedSlots (l.map (fun k => Event.destruct (f k))) = l.map f := by
  induction l with
  | nil => rfl
  | cons a t ih =>
    simp only [destructedSlots, List.map_cons, List.filterMap_cons] at ih ⊢
    rw [ih]

theorem destructedSlots_append (a b : List Event) :
    destructedSlots (a ++ b) = destructedSlots a ++ destructedSlots b := by
  simp [destructedSlots, List.filterMap_append]

/-- The slots that the unwinding of `gc_new_meta` destroys when the constructor
of slot `i` raises: `i, i - 1, ..., 1`. -/
theorem gc_new_meta_unwind_slots (newMeta : Nat → Except Exn Nat) (ctor : Nat → Option Exn)
    (len i m : Nat) (e : Exn) (hm : newMeta len = .ok m) (hi : i < len)
    (hok : ∀ j, j < i → ctor j = none) (he : ctor i = some e) :
    destructedSlots (gc_new_meta newMeta ctor len).1 = (List.range i).map (fun k => i - k) := by
  rw [gc_new_meta_of_failure newMeta ctor len i m e hm hi hok he]
  simp only [destructedSlots_append, destructedSlots_construct, destructedSlots_destruct]
  simp [destructedSlots]

/-- C4 (evaluation at the failing input): with `len = 3` and the constructor of
slot 2 raising, as in `testException`, `gc_new_meta` enters the constructors of
slots 0, 1, 2 and then runs the element destructor on slot 2, whose construction
did not complete, and on slot 1; slot 0, which was constructed, is not destroyed. -/
theorem C4_unwind_destroys_failed_slot_not_slot_zero :
    constructedSlots (gc_new_meta (fun _ => .ok 64) (testExceptionCtor 3) 3).1 = [0, 1, 2]
    ∧ destructedSlots (gc_new_meta (fun _ => .ok 64) (testExceptionCtor 3) 3).1 = [2, 1]
    ∧ (gc_new_meta (fun _ => .ok 64) (testExceptionCtor 3) 3).2 = .error 1 := by
  refine ⟨by decide, by decide, rfl⟩

/-- C5: when `newMeta` has returned a header, `1 ≤ len`, the constructors of
slots `0..i-1` succeed and the constructor of slot `i < len` raises `e`, then
`gc_new_array` (that is `gc_new_meta`) runs exactly `i` element destructors and
`e` reaches the caller; when the failing slot is the last one that is `len - 1`
destructor calls. -/
theorem C5_failure_runs_i_destructors (newMeta : Nat → Except Exn Nat)
    (ctor : Nat → Option Exn) (len i m : Nat) (e : Exn)
    (hm : newMeta len = .ok m) (hlen : 1 ≤ len) (hi : i < len)
    (hok : ∀ j, j < i → ctor j = none) (he : ctor i = some e) :
    ((gc_new_array newMeta ctor len).1.filter Event.isDestruct).length = i
    ∧ (gc_new_array newMeta ctor len).2 = .error e
    ∧ (i + 1 = len →
        ((gc_new_array newMeta ctor len).1.filter Event.isDestruct).length = len - 1) := by
  have hcount : ((gc_new_array newMeta ctor len).1.filter Event.isDestruct).length = i := by
    rw [gc_new_array, gc_new_meta_of_failure newMeta ctor len i m e hm hi hok he]
    simp only [List.filter_append, filter_isDestruct_construct, filter_isDestruct_destruct]
    simp [Event.isDestruct]
  refine ⟨hcount, ?_, ?_⟩
  · rw [gc_new_array, gc_new_meta_of_failure newMeta ctor len i m e hm hi hok he]
  · intro hlast
    rw [hcount]
    omega

/-- Witness for C5: `testException` (`len = 3`, third construction throws `1`). -/
theorem C5_failure_runs_i_destructors_witness :
    ((gc_new_array (fun _ => .ok 64) (testExceptionCtor 3) 3).1.filter Event.isDestruct).length
        = 2
    ∧ (gc_new_array (fun _ => .ok 64) (testExceptionCtor 3) 3).2 = .error 1
    ∧ (2 + 1 = 3 →
        ((gc_new_array (fun _ => .ok 64) (testExceptionCtor 3) 3).1.filter
          Event.isDestruct).length = 3 - 1) :=
  C5_failure_runs_i_destructors (fun _ => .ok 64) (testExceptionCtor 3) 3 2 64 1
    rfl (by decide) (by decide) (by decide) (by decide)

/-- C6 (counterexample): `newMeta` propagates an allocation failure `7`; no
element constructor raises (none is even run), yet `gc_new_meta` raises. -/
theorem C6_raises_without_constructor_failure :
    (gc_new_meta (fun _ => .error 7) (fun _ => none) 1).2 = .error 7
    ∧ (gc_new_meta (fun _ => .error 7) (fun _ => none) 1).1 = [Event.newMeta 1]
    ∧ (∀ i, i < 1 → (fun _ => none : Nat → Option Exn) i = none) := by
  refine ⟨rfl, by decide, fun _ _ => rfl⟩

/-- C6 (amended): when `newMeta` has returned the header `m`, `gc_new_meta`
raises iff the constructor of some slot below `len` raises; if slot `i` is the
first such, with failure `e`, then `endNewMeta(m, true)` is called exactly once,
as the last step, and `e` is what reaches the caller; if no constructor raises,
the slots `0..len-1` are constructed in increasing order, `endNewMeta(m, false)`
is called once, as the last step, and `m` is returned. -/
theorem C6_raises_iff_constructor_raises (newMeta : Nat → Except Exn Nat)
    (ctor : Nat → Option Exn) (len m : Nat) (hm : newMeta len = .ok m) :
    ((∃ e, (gc_new_meta newMeta ctor len).2 = .error e) ↔ ∃ i, i < len ∧ ctor i ≠ none)
    ∧ (∀ i e, i < len → (∀ j, j < i → ctor j = none) → ctor i = some e →
        (gc_new_meta newMeta ctor len).2 = .error e
        ∧ (gc_new_meta newMeta ctor len).1.filter Event.isEndNewMeta
            = [Event.endNewMeta m true]
        ∧ (gc_new_meta newMeta ctor len).1.getLast? = some (Event.endNewMeta m true))
    ∧ ((∀ i, i < len → ctor i = none) →
        gc_new_meta newMeta ctor len
          = (Event.newMeta len :: (List.range len).map Event.construct
              ++ [Event.endNewMeta m false], .ok m)) := by
  have hfail : ∀ i e, i < len → (∀ j, j < i → ctor j = none) → ctor i = some e →
      (gc_new_meta newMeta ctor len).2 = .error e
      ∧ (gc_new_meta newMeta ctor len).1.filter Event.isEndNewMeta
          = [Event.endNewMeta m true]
      ∧ (gc_new_meta newMeta ctor len).1.getLast? = some (Event.endNewMeta m true) := by
    intro i e hi hok he
    rw [gc_new_meta_of_failure newMeta ctor len i m e hm hi hok he]
    refine ⟨rfl, ?_, ?_⟩
    · simp only [List.filter_append, filter_isEndNewMeta_construct,
        filter_isEndNewMeta_destruct]
      simp [Event.isEndNewMeta]
    · exact List.getLast?_concat _
  have hsucc : (∀ i, i < len → ctor i = none) →
      gc_new_meta newMeta ctor len
        = (Event.newMeta len :: (List.range len).map Event.construct
            ++ [Event.endNewMeta m false], .ok m) := by
    intro hok
    rw [gc_new_meta_of_success newMeta ctor len m hm hok, List.range_eq_range']
    simp
  refine ⟨⟨?_, ?_⟩, hfail, hsucc⟩
  · rintro ⟨e, he⟩
    by_contra hno
    have hok : ∀ i, i < len → ctor i = none := by
      intro i hi
      by_contra hc
      exact hno ⟨i, hi, hc⟩
    rw [hsucc hok] at he
    cases he
  · rintro ⟨i, hi, hc⟩
    have hex : ∃ k, k < len ∧ ctor k ≠ none := ⟨i, hi, hc⟩
    classical
    have hmin := Nat.find_spec hex
    have hbelow : ∀ j, j < Nat.find hex → ctor j = none := by
      intro j hj
      by_contra hcj
      exact Nat.find_min hex hj ⟨by omega, hcj⟩
    obtain ⟨e, he⟩ := Option.ne_none_iff_exists'.mp hmin.2
    exact ⟨e, (hfail (Nat.find hex) e hmin.1 hbelow he).1⟩

/-- Witness for C6: `testException` with a successful `newMeta`. -/
theorem C6_raises_iff_constructor_raises_witness :
    ((∃ e, (gc_new_meta (fun _ => .ok 64) (testExceptionCtor 3) 3).2 = .error e)
        ↔ ∃ i, i < 3 ∧ testExceptionCtor 3 i ≠ none)
    ∧ (∀ i e, i < 3 → (∀ j, j < i → testExceptionCtor 3 j = none) →
        testExceptionCtor 3 i = some e →
        (gc_new_meta (fun _ => .ok 64) (testExceptionCtor 3) 3).2 = .error e
        ∧ (gc_new_meta (fun _ => .ok 64) (testExceptionCtor 3) 3).1.filter Event.isEndNewMeta
            = [Event.endNewMeta 64 true]
        ∧ (gc_new_meta (fun _ => .ok 64) (testExceptionCtor 3) 3).1.getLast?
            = some (Event.endNewMeta 64 true))
    ∧ ((∀ i, i < 3 → testExceptionCtor 3 i = none) →
        gc_new_meta (fun _ => .ok 64) (testExceptionCtor 3) 3
          = (Event.newMeta 3 :: (List.range 3).map Event.construct
              ++ [Event.endNewMeta 64 false], .ok 64)) :=
  C6_raises_iff_constructor_raises (fun _ => .ok 64) (testExceptionCtor 3) 3 64 rfl

/-! ### Dereference and equality of handles -/

/-- C8 (counterexample): for the null handle, `operator->` does not fail: it
returns the null address; so does the address computed by `operator*`. -/
theorem C8_arrow_on_null_returns_null :
    ({ meta := 0, owner := 0 } : PtrBase).meta = 0
    ∧ GcPtr.arrow 40 { meta := 0, owner := 0 } = .ok 0
    ∧ GcPtr.star 40 { meta := 0, owner := 0 } = .ok 0 := by
  refine ⟨rfl, rfl, rfl⟩

/-- C8 (amended): `operator->` and `operator*` never raise; for a non-null
`meta` both yield the referent address `meta + sizeof(ObjMeta)`, and for a null
`meta` the address `operator->` returns is null. -/
theorem C8_deref_returns_referent_or_null (sizeofObjMeta : Nat) (p : PtrBase) :
    (∃ a, GcPtr.arrow sizeofObjMeta p = .ok a ∧ GcPtr.star sizeofObjMeta p = .ok a
        ∧ (a = 0 ↔ p.meta = 0))
    ∧ (p.meta ≠ 0 → GcPtr.arrow sizeofObjMeta p = .ok (p.meta + sizeofObjMeta)
        ∧ GcPtr.star sizeofObjMeta p = .ok (p.meta + sizeofObjMeta))
    ∧ (p.meta = 0 → GcPtr.arrow sizeofObjMeta p = .ok 0) := by
  refine ⟨⟨GcPtr.ptr sizeofObjMeta p, rfl, rfl, ?_⟩, ?_, ?_⟩
  · unfold GcPtr.ptr objPtr
    by_cases h : p.meta = 0
    · simp [h]
    · simp [h]
  · intro h
    simp [GcPtr.arrow, GcPtr.star, GcPtr.ptr, objPtr, h]
  · intro h
    simp [GcPtr.arrow, GcPtr.ptr, h]

/-- C9: `a == b` holds iff `a.meta = b.meta` (two null handles are equal, a
null and a non-null handle are not), and `a != b` is the negation of `a == b`. -/
theorem C9_eq_iff_same_meta (sizeofObjMeta : Nat) (a b : PtrBase) :
    (GcPtr.eq sizeofObjMeta a b = true ↔ a.meta = b.meta)
    ∧ GcPtr.ne sizeofObjMeta a b = !GcPtr.eq sizeofObjMeta a b := by
  refine ⟨?_, ?_⟩
  · unfold GcPtr.eq GcPtr.ptr objPtr
    by_cases ha : a.meta = 0 <;> by_cases hb : b.meta = 0
    · simp [ha, hb]
    · simp [ha, hb]
      omega
    · simp [ha, hb]
    · simp [ha, hb]
  · unfold GcPtr.ne GcPtr.eq
    rfl

/-! ### The root-count invariant and the handle operations -/

theorem incRef_frame (s : Heap) (m : Nat) :
    (s.incRef m).ptrs = s.ptrs ∧ (s.incRef m).newGen = s.newGen
      ∧ (s.incRef m).oldGen = s.oldGen := by
  unfold Heap.incRef Heap.modifyMeta
  cases s.metas[m]? <;> simp

theorem incRef_metas_length (s : Heap) (m : Nat) :
    (s.incRef m).metas.length = s.metas.length := by
  unfold Heap.incRef Heap.modifyMeta
  cases s.metas[m]? <;> simp

theorem writeBarrier_frame (s : Heap) (p : Nat) :
    (writeBarrier s p).ptrs = s.ptrs ∧ (writeBarrier s p).newGen = s.newGen
      ∧ (writeBarrier s p).oldGen = s.oldGen
      ∧ (writeBarrier s p).metas.length = s.metas.length := by
  unfold writeBarrier
  cases hp : s.ptrs[p]? with
  | none => simp
  | some h =>
    simp only []
    by_cases hroot : h.owner = 0
    · rw [if_pos hroot]
      by_cases hn : h.meta ≠ 0
      · rw [if_pos hn]
        have h1 := incRef_frame { s with barrierLog := s.barrierLog ++ [p] } h.meta
        have h2 := incRef_metas_length { s with barrierLog := s.barrierLog ++ [p] } h.meta
        exact ⟨h1.1, h1.2.1, h1.2.2, h2⟩
      · rw [if_neg hn]
        exact ⟨rfl, rfl, rfl, rfl⟩
    · rw [if_neg hroot]
      split <;> split <;> simp

theorem setMeta_of_some (s : Heap) (p n : Nat) (h0 : PtrBase) (hp : s.ptrs[p]? = some h0) :
    s.setMeta p n = { s with ptrs := s.ptrs.set p { h0 with meta := n } } := by
  unfold Heap.setMeta
  rw [hp]

theorem setMeta_of_none (s : Heap) (p n : Nat) (hp : s.ptrs[p]? = none) :
    s.setMeta p n = s := by
  unfold Heap.setMeta
  rw [hp]

theorem getElem?_set_self_of_some {α : Type} (l : List α) (i : Nat) (a old : α)
    (h : l[i]? = some old) : (l.set i a)[i]? = some a := by
  have hlt : i < l.length := (List.getElem?_eq_some_iff.mp h).1
  simp [List.getElem?_set, hlt]

theorem reset_frame (s : Heap) (p n : Nat) :
    (GcPtr.reset s p n).newGen = s.newGen ∧ (GcPtr.reset s p n).oldGen = s.oldGen
      ∧ (GcPtr.reset s p n).ptrs = (s.setMeta p n).ptrs := by
  unfold GcPtr.reset
  have h := writeBarrier_frame (s.setMeta p n) p
  refine ⟨?_, ?_, h.1⟩
  · rw [h.2.1]
    unfold Heap.setMeta
    cases s.ptrs[p]? <;> rfl
  · rw [h.2.2.1]
    unfold Heap.setMeta
    cases s.ptrs[p]? <;> rfl

theorem construct_metaOf (s : Heap) (src : Nat) :
    (PtrBase.construct s).1.metaOf src = s.metaOf src := by
  unfold PtrBase.construct Heap.metaOf
  simp only []
  by_cases h1 : src < s.ptrs.length
  · rw [List.getElem?_append_left h1]
  · have h2 : s.ptrs[src]? = none := List.getElem?_eq_none (by omega)
    rw [h2, List.getElem?_append_right (by omega)]
    by_cases h3 : src - s.ptrs.length = 0
    · rw [h3]; rfl
    · have h4 : ([{ meta := 0, owner := s.creatingObjs.head?.getD 0 }] : List PtrBase)[
          src - s.ptrs.length]? = none := List.getElem?_eq_none (by simp; omega)
      rw [h4]

theorem getPtr_reset (s : Heap) (p n q : Nat) :
    (GcPtr.reset s p n).ptrs[q]?
      = if q = p then (s.ptrs[p]?).map (fun h => { h with meta := n }) else s.ptrs[q]? := by
  rw [(reset_frame s p n).2.2]
  cases hp : s.ptrs[p]? with
  | none =>
    rw [setMeta_of_none s p n hp]
    by_cases hq : q = p
    · subst hq; simp [hp]
    · simp [hq]
  | some h0 =>
    rw [setMeta_of_some s p n h0 hp]
    by_cases hq : q = p
    · subst hq
      simp only [if_true, Option.map_some']
      exact getElem?_set_self_of_some s.ptrs q _ h0 hp
    · have hq2 : p ≠ q := fun h => hq h.symm
      simp only [hq, if_false]
      exact List.getElem?_set_ne hq2

/-! ### Copy and move -/

theorem metaOf_reset (s : Heap) (p n q : Nat) :
    (GcPtr.reset s p n).metaOf q
      = if q = p then (if p < s.ptrs.length then n else 0) else s.metaOf q := by
  unfold Heap.metaOf
  rw [getPtr_reset]
  by_cases hq : q = p
  · subst hq
    simp only [if_true]
    by_cases hlt : q < s.ptrs.length
    · rw [if_pos hlt, List.getElem?_eq_getElem hlt]
      rfl
    · rw [if_neg hlt, List.getElem?_eq_none (by omega)]
      rfl
  · simp only [hq, if_false]

theorem metaOf_assignNull (s : Heap) (p q : Nat) :
    (GcPtr.assignNull s p).metaOf q = if q = p then 0 else s.metaOf q := by
  unfold GcPtr.assignNull
  cases hp : s.ptrs[p]? with
  | none =>
    rw [setMeta_of_none s p 0 hp]
    by_cases hq : q = p
    · subst hq
      unfold Heap.metaOf
      simp [hp]
    · simp [hq]
  | some h0 =>
    rw [setMeta_of_some s p 0 h0 hp]
    unfold Heap.metaOf
    by_cases hq : q = p
    · subst hq
      simp only [if_true]
      rw [getElem?_set_self_of_some s.ptrs q _ h0 hp]
    · have hq2 : p ≠ q := fun h => hq h.symm
      simp only [hq, if_false]
      rw [List.getElem?_set_ne hq2]

theorem construct_length (s : Heap) :
    (PtrBase.construct s).2 = s.ptrs.length
      ∧ (PtrBase.construct s).1.ptrs.length = s.ptrs.length + 1 := by
  unfold PtrBase.construct
  simp

theorem construct_new_metaOf (s : Heap) :
    (PtrBase.construct s).1.metaOf (PtrBase.construct s).2 = 0 := by
  unfold PtrBase.construct Heap.metaOf
  simp

theorem gc_assignNull_metaOf (s : Heap) (c : Nat) : (gc.assignNull s c).metaOf c = 0 := by
  unfold gc.assignNull GcPtr.moveAssign
  rw [metaOf_assignNull]
  by_cases hc : c = (PtrBase.construct s).2
  · rw [if_pos hc]
  · rw [if_neg hc, metaOf_reset, if_pos rfl, construct_new_metaOf]
    split <;> rfl

theorem destroy_metaOf (s : Heap) (m c : Nat) : (ObjMeta.destroy s m).metaOf c = s.metaOf c :=
  rfl

/-- C13: for every handle `src` of the heap, null or not,
`gc_static_pointer_cast` returns a handle whose `meta` is `src.meta`, and the
record of `src` (its `meta` and its `owner`) is what it was. -/
theorem C13_static_cast_same_meta (s : Heap) (src : Nat) (hsrc : src < s.ptrs.length) :
    (gc_static_pointer_cast s src).1.metaOf (gc_static_pointer_cast s src).2 = s.metaOf src
    ∧ (gc_static_pointer_cast s src).1.ptrs[src]? = s.ptrs[src]? := by
  have hlen := construct_length s
  have hnew2 : src ≠ (PtrBase.construct s).2 := by omega
  have hlt : (PtrBase.construct s).2 < (PtrBase.construct s).1.ptrs.length := by omega
  unfold gc_static_pointer_cast GcPtr.copyConstruct
  simp only []
  constructor
  · rw [metaOf_reset, if_pos rfl, if_pos hlt, construct_metaOf]
  · rw [getPtr_reset, if_neg hnew2]
    unfold PtrBase.construct
    simp only []
    rw [List.getElem?_append_left hsrc]

/-- Witness for C13: the cast of handle 0 of `twoObjectHeap`, which references
header 1. -/
theorem C13_static_cast_same_meta_witness :
    (gc_static_pointer_cast twoObjectHeap 0).1.metaOf (gc_static_pointer_cast twoObjectHeap 0).2
      = 1
    ∧ (gc_static_pointer_cast twoObjectHeap 0).1.ptrs[0]? = some { meta := 1, owner := 0 } :=
  C13_static_cast_same_meta twoObjectHeap 0 (by decide)

/-- C16: the header constructed for class descriptor `c` and element count `n`
has `klass = c`, `arrayLength = n`, colour White, `isOld = false`,
`scanCountInNewGen = 0` and `refCntFromRoot = 0`; `isRoot` holds exactly when
`refCntFromRoot > 0`, so the fresh header is not a root. -/
theorem C16_fresh_header_state (c n : Nat) :
    (ObjMeta.new c n).klass = c ∧ (ObjMeta.new c n).arrayLength = n
    ∧ (ObjMeta.new c n).color = Color.White ∧ (ObjMeta.new c n).isOld = false
    ∧ (ObjMeta.new c n).scanCountInNewGen = 0 ∧ (ObjMeta.new c n).refCntFromRoot = 0
    ∧ (∀ o : ObjMeta, o.isRoot = true ↔ 0 < o.refCntFromRoot)
    ∧ (ObjMeta.new c n).isRoot = false := by
  refine ⟨rfl, rfl, rfl, rfl, rfl, rfl, ?_, rfl⟩
  intro o
  unfold ObjMeta.isRoot
  simp

theorem writeBarrier_barrierLog (s : Heap) (p : Nat) (hp : p < s.ptrs.length) :
    (writeBarrier s p).barrierLog = s.barrierLog ++ [p] := by
  unfold writeBarrier
  rw [List.getElem?_eq_getElem hp]
  simp only []
  by_cases hroot : s.ptrs[p].owner = 0
  · rw [if_pos hroot]
    by_cases hn : s.ptrs[p].meta ≠ 0
    · rw [if_pos hn]
      unfold Heap.incRef Heap.modifyMeta
      simp only []
      cases s.metas[s.ptrs[p].meta]? <;> rfl
    · rw [if_neg hn]
  · rw [if_neg hroot]
    split <;> split <;> rfl

theorem setMeta_barrierLog (s : Heap) (p n : Nat) :
    (s.setMeta p n).barrierLog = s.barrierLog ∧ (s.setMeta p n).ptrs.length = s.ptrs.length := by
  unfold Heap.setMeta
  cases s.ptrs[p]? <;> simp

/-- C17 (counterexample): the root handle 0 of `oneRootedHeap`, taken as a
`gc<T>`.  `GcPtr::operator=(nullptr_t)` on it runs no barrier and adds no
handle; the statement `h = nullptr`, which on a `gc<T>` is the move assignment
from a null temporary, nulls the handle through `reset`, which runs the write
barrier on it, and the temporary is one more handle. -/
theorem C17_gc_null_assignment_runs_barrier :
    (GcPtr.assignNull oneRootedHeap 0).barrierLog = []
    ∧ (GcPtr.assignNull oneRootedHeap 0).ptrs.length = 1
    ∧ (gc.assignNull oneRootedHeap 0).metaOf 0 = 0
    ∧ (gc.assignNull oneRootedHeap 0).barrierLog = [0]
    ∧ (gc.assignNull oneRootedHeap 0).ptrs.length = 2 := by
  refine ⟨by decide, by decide, by decide, by decide, by decide⟩

/-- C17 (amended): `GcPtr::operator=(nullptr_t)` on the handle `p` writes the
`meta` of `p` and nothing else: afterwards `p.meta` is null and `p.owner` is
what it was, every other handle is unchanged, and so is every header (in
particular every `refCntFromRoot`) and every member of the collector; the
barrier is not run.  The statement `c = nullptr` on a handle `c` of class
`gc<T>` is a move assignment from a null temporary: it leaves `c.meta` null
and runs the write barrier once, on `c`. -/
theorem C17_null_assignment_touches_only_meta (s : Heap) (p : Nat) :
    (GcPtr.assignNull s p).metaOf p = 0
    ∧ (GcPtr.assignNull s p).ownerOf p = s.ownerOf p
    ∧ (∀ q, q ≠ p → (GcPtr.assignNull s p).ptrs[q]? = s.ptrs[q]?)
    ∧ (GcPtr.assignNull s p).ptrs.length = s.ptrs.length
    ∧ GcPtr.assignNull s p = { s with ptrs := (GcPtr.assignNull s p).ptrs }
    ∧ (∀ x, (GcPtr.assignNull s p).refCntOf x = s.refCntOf x)
    ∧ (GcPtr.assignNull s p).barrierLog = s.barrierLog
    ∧ (gc.assignNull s p).metaOf p = 0
    ∧ (p < s.ptrs.length → (gc.assignNull s p).barrierLog = s.barrierLog ++ [p]) := by
  have hgc : (gc.assignNull s p).metaOf p = 0 ∧
      (p < s.ptrs.length → (gc.assignNull s p).barrierLog = s.barrierLog ++ [p]) := by
    refine ⟨gc_assignNull_metaOf s p, ?_⟩
    intro hlt
    have hlen := construct_length s
    unfold gc.assignNull GcPtr.moveAssign GcPtr.assignNull GcPtr.reset
    rw [(setMeta_barrierLog _ _ _).1, writeBarrier_barrierLog, (setMeta_barrierLog _ _ _).1]
    · rfl
    · rw [(setMeta_barrierLog _ _ _).2]
      omega
  unfold GcPtr.assignNull at *
  cases hp : s.ptrs[p]? with
  | none =>
    rw [setMeta_of_none s p 0 hp]
    refine ⟨?_, rfl, fun _ _ => rfl, rfl, rfl, fun _ => rfl, rfl, hgc⟩
    unfold Heap.metaOf
    rw [hp]
  | some h0 =>
    rw [setMeta_of_some s p 0 h0 hp]
    refine ⟨?_, ?_, ?_, ?_, rfl, fun _ => rfl, rfl, hgc⟩
    · unfold Heap.metaOf
      simp only []
      rw [getElem?_set_self_of_some _ _ _ _ hp]
    · unfold Heap.ownerOf
      simp only []
      rw [getElem?_set_self_of_some _ _ _ _ hp, hp]
    · intro q hq
      simp only []
      rw [List.getElem?_set_ne (fun h => hq h.symm)]
    · simp

/-- C12: the call `r.reset(p, from.getMeta())` in `gc_dynamic_pointer_cast`
passes two arguments, and no `reset` of the handle type takes two: the call
selects no function, so the cast has no instance that returns a handle.  A call
with the header alone would select `GcPtr::reset(ObjMeta*)`. -/
theorem C12_dynamic_cast_reset_call_has_no_target :
    viableByArity GcPtr.resetArities gc_dynamic_pointer_cast.resetCallArity = []
    ∧ (∀ n ∈ GcPtr.resetArities, n ≠ gc_dynamic_pointer_cast.resetCallArity)
    ∧ viableByArity GcPtr.resetArities 1 = [1] := by
  refine ⟨by decide, ?_, by decide⟩
  intro n hn
  have e : n = 1 := by simpa [GcPtr.resetArities] using hn
  rw [e]
  decide

/-! ### Ordering, the class trampoline, the allocator hooks -/

/-- C18: for non-null handles `a` and `b`, `a < b` is the referent type's `<`
on the two referents.  Only the referents enter: handles to other headers with
the same referent values compare the same way, and when neither referent is
below the other, neither handle is below the other. -/
theorem C18_ordering_delegates_to_referent {V : Type} (sizeofObjMeta : Nat)
    (deref : Nat → V) (lt : V → V → Bool) (a b : PtrBase)
    (ha : a.meta ≠ 0) (hb : b.meta ≠ 0) :
    GcPtr.lt sizeofObjMeta deref lt a b
      = lt (deref (objPtr sizeofObjMeta a.meta)) (deref (objPtr sizeofObjMeta b.meta))
    ∧ (∀ a2 b2 : PtrBase, a2.meta ≠ 0 → b2.meta ≠ 0 →
        deref (objPtr sizeofObjMeta a2.meta) = deref (objPtr sizeofObjMeta a.meta) →
        deref (objPtr sizeofObjMeta b2.meta) = deref (objPtr sizeofObjMeta b.meta) →
        GcPtr.lt sizeofObjMeta deref lt a2 b2 = GcPtr.lt sizeofObjMeta deref lt a b)
    ∧ (lt (deref (objPtr sizeofObjMeta a.meta)) (deref (objPtr sizeofObjMeta b.meta)) = false →
        lt (deref (objPtr sizeofObjMeta b.meta)) (deref (objPtr sizeofObjMeta a.meta)) = false →
        GcPtr.lt sizeofObjMeta deref lt a b = false
        ∧ GcPtr.lt sizeofObjMeta deref lt b a = false) := by
  have key : ∀ x y : PtrBase, x.meta ≠ 0 → y.meta ≠ 0 →
      GcPtr.lt sizeofObjMeta deref lt x y
        = lt (deref (objPtr sizeofObjMeta x.meta)) (deref (objPtr sizeofObjMeta y.meta)) := by
    intro x y hx hy
    unfold GcPtr.lt GcPtr.ptr
    rw [if_pos hx, if_pos hy]
  refine ⟨key a b ha hb, ?_, ?_⟩
  · intro a2 b2 ha2 hb2 e1 e2
    rw [key a2 b2 ha2 hb2, key a b ha hb, e1, e2]
  · intro h1 h2
    rw [key a b ha hb, key b a hb ha]
    exact ⟨h1, h2⟩

/-- Witness for C18: headers at 100 and 200 with `sizeof(ObjMeta) = 40`, both
referents equal to 5 under the order of the natural numbers: neither handle is
below the other although the headers differ. -/
theorem C18_ordering_delegates_to_referent_witness :
    GcPtr.lt 40 (fun p => if p = 140 ∨ p = 240 then 5 else 0) (fun x y => decide (x < y))
        { meta := 100, owner := 0 } { meta := 200, owner := 0 } = false
    ∧ GcPtr.lt 40 (fun p => if p = 140 ∨ p = 240 then 5 else 0) (fun x y => decide (x < y))
        { meta := 200, owner := 0 } { meta := 100, owner := 0 } = false :=
  (C18_ordering_delegates_to_referent 40 (fun p => if p = 140 ∨ p = 240 then 5 else 0)
    (fun x y => decide (x < y)) { meta := 100, owner := 0 } { meta := 200, owner := 0 }
    (by decide) (by decide)).2.2 (by decide) (by decide)

theorem dctorLoop_spec (n sizeofT : Nat) :
    ∀ (fuel i p : Nat) (dctors : List Nat), n - i ≤ fuel →
      Holder.dctorLoop n sizeofT fuel i p dctors
        = dctors ++ (List.range (n - i)).map (fun j => p + j * sizeofT) := by
  intro fuel
  induction fuel with
  | zero =>
    intro i p dctors h
    have h0 : n - i = 0 := by omega
    simp [Holder.dctorLoop, h0]
  | succ fuel ih =>
    intro i p dctors h
    unfold Holder.dctorLoop
    by_cases hi : i < n
    · rw [if_pos hi, ih (i + 1) (p + sizeofT) (dctors ++ [p]) (by omega)]
      have hn : n - i = (n - (i + 1)) + 1 := by omega
      rw [hn, List.range_succ_eq_map]
      simp only [List.map_cons, List.map_map, List.append_assoc, List.singleton_append,
        Nat.zero_mul, Nat.add_zero]
      congr 2
      apply List.map_congr_left
      intro j _
      simp only [Function.comp, Nat.succ_eq_add_one]
      rw [Nat.add_mul, Nat.one_mul]
      omega
    · rw [if_neg hi]
      have h0 : n - i = 0 := by omega
      simp [h0]

/-- C15: for a header at `param` with `arrayLength = n`, the `Dctor` request
runs the destructor of `T` on the addresses `payload + i * sizeof(T)`,
`i = 0 .. n-1`, in this order, once each and on nothing else, and returns null;
the loop ends by its own test, whatever larger bound it is given. -/
theorem C15_dctor_request_destroys_each_element (sizeofObjMeta sizeofT enumerator param : Nat)
    (o : ObjMeta) :
    Holder.MemHandler sizeofObjMeta sizeofT enumerator ClassMeta.MemRequest.Dctor param o
      = ((List.range o.arrayLength).map (fun i => objPtr sizeofObjMeta param + i * sizeofT), 0)
    ∧ (∀ fuel, o.arrayLength ≤ fuel →
        Holder.dctorLoop o.arrayLength sizeofT fuel 0 (objPtr sizeofObjMeta param) []
          = (List.range o.arrayLength).map (fun i => objPtr sizeofObjMeta param + i * sizeofT)) := by
  have h : ∀ fuel, o.arrayLength ≤ fuel →
      Holder.dctorLoop o.arrayLength sizeofT fuel 0 (objPtr sizeofObjMeta param) []
        = (List.range o.arrayLength).map (fun i => objPtr sizeofObjMeta param + i * sizeofT) := by
    intro fuel hf
    rw [dctorLoop_spec o.arrayLength sizeofT fuel 0 _ [] (by omega)]
    simp
  refine ⟨?_, h⟩
  unfold Holder.MemHandler
  simp only []
  rw [h o.arrayLength (Nat.le_refl _)]

/-- C19: `callAlloc(sz)` calls the `alloc` hook on `sz` and returns its result
when the hook is set, and calls the host allocator only when it is unset;
`callDealloc(p)` passes `p` to the `dealloc` hook when that hook is set, and to
the host deallocator only when it is unset.  The allocation request of a new
header and the release of a header go through these two functions, so they
reach the hooks when set. -/
theorem C19_allocator_hooks_consulted (alloc dealloc : Nat) (call : Nat → Nat → Nat)
    (hostNew : Nat → Nat) (sz p sizeofObjMeta size objCnt : Nat) :
    (alloc ≠ 0 →
      ClassMeta.callAlloc alloc call hostNew sz = (AllocCall.hook alloc sz, call alloc sz))
    ∧ (alloc = 0 →
      ClassMeta.callAlloc alloc call hostNew sz = (AllocCall.hostNew sz, hostNew sz))
    ∧ (dealloc ≠ 0 → ClassMeta.callDealloc dealloc p = AllocCall.hook dealloc p)
    ∧ (dealloc = 0 → ClassMeta.callDealloc dealloc p = AllocCall.hostDelete p)
    ∧ (alloc ≠ 0 →
      ClassMeta.newMetaRequest alloc call hostNew sizeofObjMeta size objCnt
        = (AllocCall.hook alloc (sizeofObjMeta + objCnt * size),
            call alloc (sizeofObjMeta + objCnt * size)))
    ∧ (dealloc ≠ 0 → ObjMeta.operatorDelete dealloc p = AllocCall.hook dealloc p) := by
  unfold ClassMeta.newMetaRequest ObjMeta.operatorDelete ClassMeta.callAlloc
    ClassMeta.callDealloc
  refine ⟨?_, ?_, ?_, ?_, ?_, ?_⟩
  · intro h; rw [if_pos h]
  · intro h; rw [if_neg (by simpa using h)]
  · intro h; rw [if_pos h]
  · intro h; rw [if_neg (by simpa using h)]
  · intro h; rw [if_pos h]
  · intro h; rw [if_pos h]

/-! ### Container enumerators -/

theorem getNextCalls_read {α : Type} (addr : α → Nat)
    (getNext : ContainerPtrEnumerator α → Fetched × ContainerPtrEnumerator α)
    (hstep : ∀ e : ContainerPtrEnumerator α, e.it < e.o.length →
      getNext e = (e.read addr, e.advance))
    (o : List α) :
    ∀ n i, i + n = o.length →
      getNextCalls getNext n { o := o, it := i }
        = ((o.drop i).map (fun x => Fetched.handle (addr x)), { o := o, it := o.length }) := by
  intro n
  induction n with
  | zero =>
    intro i h
    have hi : i = o.length := by omega
    subst hi
    simp [getNextCalls]
  | succ n ih =>
    intro i h
    have hi : i < o.length := by omega
    unfold getNextCalls
    simp only []
    rw [hstep { o := o, it := i } hi]
    simp only [ContainerPtrEnumerator.advance, ContainerPtrEnumerator.read]
    rw [ih (i + 1) (by omega), List.getElem?_eq_getElem hi, List.drop_eq_getElem_cons hi]
    rfl

theorem getNextCalls_all {α : Type} (addr : α → Nat)
    (getNext : ContainerPtrEnumerator α → Fetched × ContainerPtrEnumerator α)
    (hstep : ∀ e : ContainerPtrEnumerator α, e.it < e.o.length →
      getNext e = (e.read addr, e.advance))
    (o : List α) :
    getNextCalls getNext o.length (ContainerPtrEnumerator.new o)
      = (o.map (fun x => Fetched.handle (addr x)), { o := o, it := o.length }) := by
  unfold ContainerPtrEnumerator.new
  rw [getNextCalls_read addr getNext hstep o o.length 0 (by omega)]
  simp

theorem vector_getNext_step (e : ContainerPtrEnumerator Nat) (h : e.it < e.o.length) :
    PtrEnumerator.vector.getNext e = (e.read id, e.advance) := by
  unfold PtrEnumerator.vector.getNext ContainerPtrEnumerator.hasNext
  have hne : (e.it != e.o.length) = true := by
    simp only [bne_iff_ne, ne_eq]
    omega
  rw [if_pos hne]

/-- C14: the vector enumerator overrides `IPtrEnumerator::getNext` with the
return type of the base, and over a vector storing the handles at addresses `o`
(in iteration order) its first `o.length` calls return exactly these addresses,
in this order, one per call.  The deque, list, set, map and unordered_map
enumerators declare `const PtrBase* getNext() override` against the
`PtrBase* getNext()` of the base: a return type that may not override it, so
none of the five has an instance whose `getNext` could be called. -/
theorem C14_only_vector_enumerator_overrides_getNext (o : List Nat) :
    (getNextCalls PtrEnumerator.vector.getNext o.length (ContainerPtrEnumerator.new o)).1
      = o.map Fetched.handle
    ∧ mayOverride IPtrEnumerator.getNext.returnType PtrEnumerator.vector.getNext.returnType
      = true
    ∧ mayOverride IPtrEnumerator.getNext.returnType PtrEnumerator.deque.getNext.returnType
      = false
    ∧ mayOverride IPtrEnumerator.getNext.returnType PtrEnumerator.list.getNext.returnType
      = false
    ∧ mayOverride IPtrEnumerator.getNext.returnType PtrEnumerator.set.getNext.returnType
      = false
    ∧ mayOverride IPtrEnumerator.getNext.returnType PtrEnumerator.map.getNext.returnType
      = false
    ∧ mayOverride IPtrEnumerator.getNext.returnType
        PtrEnumerator.unordered_map.getNext.returnType = false := by
  refine ⟨?_, rfl, rfl, rfl, rfl, rfl, rfl⟩
  rw [getNextCalls_all id _ vector_getNext_step o]
  rfl

/-! ### The intrusive list -/

theorem traversalFrom_nil (l : helper.list) (p : Nat) :
    l.TraversalFrom p [] ↔ p = 0 := by
  simp [helper.list.TraversalFrom, helper.list.end_]

theorem traversalFrom_cons (l : helper.list) (p x : Nat) (xs : List Nat) :
    l.TraversalFrom p (x :: xs) ↔ p = x ∧ p ≠ 0 ∧ l.TraversalFrom (l.next p) xs := by
  simp [helper.list.TraversalFrom, helper.list.end_, helper.list.iterator.incr]

theorem traversalFrom_congr (l l2 : helper.list) :
    ∀ (xs : List Nat) (p : Nat), (∀ x ∈ xs, l2.next x = l.next x) →
      l.TraversalFrom p xs → l2.TraversalFrom p xs := by
  intro xs
  induction xs with
  | nil =>
    intro p _ h
    rw [traversalFrom_nil] at h ⊢
    exact h
  | cons x xs ih =>
    intro p hn h
    rw [traversalFrom_cons] at h ⊢
    obtain ⟨h1, h2, h3⟩ := h
    refine ⟨h1, h2, ?_⟩
    have e : l2.next p = l.next p := by
      rw [h1]
      exact hn x (List.mem_cons_self _ _)
    rw [e]
    exact ih _ (fun y hy => hn y (List.mem_cons_of_mem _ hy)) h3

theorem traversalFrom_functional (l : helper.list) :
    ∀ (xs ys : List Nat) (p : Nat), l.TraversalFrom p xs → l.TraversalFrom p ys → xs = ys := by
  intro xs
  induction xs with
  | nil =>
    intro ys p h1 h2
    rw [traversalFrom_nil] at h1
    cases ys with
    | nil => rfl
    | cons y ys =>
      rw [traversalFrom_cons] at h2
      exact absurd h1 h2.2.1
  | cons x xs ih =>
    intro ys p h1 h2
    rw [traversalFrom_cons] at h1
    cases ys with
    | nil =>
      rw [traversalFrom_nil] at h2
      exact absurd h2 h1.2.1
    | cons y ys =>
      rw [traversalFrom_cons] at h2
      have hxy : x = y := by rw [← h1.1, ← h2.1]
      rw [hxy, ih ys _ h1.2.2 h2.2.2]

theorem traversalFrom_suffix (l : helper.list) :
    ∀ (ys : List Nat) (q x : Nat), l.TraversalFrom q ys → x ∈ ys →
      ∃ zs, l.TraversalFrom x (x :: zs) ∧ zs.length < ys.length := by
  intro ys
  induction ys with
  | nil =>
    intro q x _ hx
    cases hx
  | cons y ys ih =>
    intro q x h hx
    rw [traversalFrom_cons] at h
    by_cases hxy : x = y
    · subst hxy
      obtain ⟨h1, h2, h3⟩ := h
      subst h1
      refine ⟨ys, ?_, by simp⟩
      rw [traversalFrom_cons]
      exact ⟨rfl, h2, h3⟩
    · have hx2 : x ∈ ys := by
        cases hx with
        | head => exact absurd rfl hxy
        | tail _ h2 => exact h2
      obtain ⟨zs, hz1, hz2⟩ := ih _ x h.2.2 hx2
      exact ⟨zs, hz1, by simp; omega⟩

theorem traversalFrom_nodup (l : helper.list) :
    ∀ (xs : List Nat) (p : Nat), l.TraversalFrom p xs → xs.Nodup := by
  intro xs
  induction xs with
  | nil => intro _ _; exact List.nodup_nil
  | cons x xs ih =>
    intro p h
    have h0 := h
    rw [traversalFrom_cons] at h
    rw [List.nodup_cons]
    refine ⟨?_, ih _ h.2.2⟩
    intro hmem
    obtain ⟨zs, hz1, hz2⟩ := traversalFrom_suffix l xs _ x h.2.2 hmem
    rw [h.1] at h0
    have e := traversalFrom_functional l _ _ x h0 hz1
    have e2 : xs = zs := by
      injection e
    rw [e2] at hz2
    exact Nat.lt_irrefl _ hz2

theorem traversalFrom_ne_zero (l : helper.list) :
    ∀ (xs : List Nat) (p : Nat), l.TraversalFrom p xs → ∀ x ∈ xs, x ≠ 0 := by
  intro xs
  induction xs with
  | nil => intro _ _ x hx; cases hx
  | cons y ys ih =>
    intro p h x hx
    rw [traversalFrom_cons] at h
    cases hx with
    | head => rw [← h.1]; exact h.2.1
    | tail _ h2 => exact ih _ h.2.2 x h2

theorem traverse_of_traversalFrom (l : helper.list) :
    ∀ (xs : List Nat) (p fuel : Nat), l.TraversalFrom p xs → xs.length ≤ fuel →
      l.traverse fuel p = xs := by
  intro xs
  induction xs with
  | nil =>
    intro p fuel h _
    rw [traversalFrom_nil] at h
    cases fuel with
    | zero => rfl
    | succ f => simp [helper.list.traverse, helper.list.end_, h]
  | cons x xs ih =>
    intro p fuel h hf
    rw [traversalFrom_cons] at h
    cases fuel with
    | zero => simp at hf
    | succ f =>
      have hf2 : xs.length ≤ f := by simpa using hf
      unfold helper.list.traverse
      have hne : p ≠ l.end_ := h.2.1
      rw [if_pos hne]
      have e := ih (l.next p) f h.2.2 hf2
      unfold helper.list.iterator.incr
      rw [e, h.1]

theorem push_back_next (l : helper.list) (v q : Nat) :
    (l.push_back v).next q
      = if q = v then 0 else if l.m_last ≠ 0 ∧ q = l.m_last then v else l.next q := by
  unfold helper.list.push_back helper.list.next helper.list.setNext helper.list.setPrev
  by_cases hl : l.m_last ≠ 0
  · by_cases hq : q = v
    · simp [hl, hq]
    · by_cases hq2 : q = l.m_last
      · subst hq2
        simp [hl, hq]
      · simp [hl, hq, hq2]
  · by_cases hq : q = v
    · simp [hl, hq]
    · simp [hl, hq]

theorem push_back_first (l : helper.list) (v : Nat) :
    (l.push_back v).m_first = if l.m_last ≠ 0 then l.m_first else v := by
  unfold helper.list.push_back helper.list.setNext helper.list.setPrev
  by_cases hl : l.m_last ≠ 0
  · simp [hl]
  · simp [hl]

theorem push_back_size (l : helper.list) (v : Nat) :
    (l.push_back v).m_size = (l.m_size + 1) % sizeModulus := by
  unfold helper.list.push_back helper.list.setNext helper.list.setPrev
  by_cases hl : l.m_last ≠ 0
  · simp [hl]
  · simp [hl]

theorem push_back_last (l : helper.list) (v : Nat) : (l.push_back v).m_last = v := rfl

theorem push_back_traversalFrom (l : helper.list) (v : Nat) (hv : v ≠ 0)
    (hlast0 : l.m_last ≠ 0) :
    ∀ (ys : List Nat) (p : Nat), l.TraversalFrom p ys → ys.Nodup → v ∉ ys →
      ys.getLast? = some l.m_last → (l.push_back v).TraversalFrom p (ys ++ [v]) := by
  have hend : (l.push_back v).TraversalFrom v [v] := by
    rw [traversalFrom_cons, traversalFrom_nil, push_back_next, if_pos rfl]
    exact ⟨rfl, hv, rfl⟩
  intro ys
  induction ys with
  | nil =>
    intro p _ _ _ hl
    simp at hl
  | cons y rest ih =>
    intro p h hnd hvn hl
    rw [traversalFrom_cons] at h
    obtain ⟨h1, h2, h3⟩ := h
    have hyv : y ≠ v := fun e => hvn (by rw [e]; exact List.mem_cons_self _ _)
    rw [List.cons_append, traversalFrom_cons]
    refine ⟨h1, h2, ?_⟩
    rw [push_back_next, h1, if_neg hyv]
    cases rest with
    | nil =>
      have hy : y = l.m_last := by simpa using hl
      rw [if_pos ⟨hlast0, hy⟩]
      exact hend
    | cons r rs =>
      have hl2 : (r :: rs).getLast? = some l.m_last := by
        rw [List.getLast?_cons_cons] at hl
        exact hl
      have hmem : l.m_last ∈ r :: rs := List.mem_of_getLast?_eq_some hl2
      have hynot : y ∉ r :: rs := (List.nodup_cons.mp hnd).1
      have hyl : y ≠ l.m_last := fun e => hynot (by rw [e]; exact hmem)
      have hneg : ¬ (l.m_last ≠ 0 ∧ y = l.m_last) := fun hh => hyl hh.2
      rw [if_neg hneg]
      rw [h1] at h3
      exact ih _ h3 (List.nodup_cons.mp hnd).2
        (fun hh => hvn (List.mem_cons_of_mem _ hh)) hl2

theorem length_lt_of_nodup_bounded (ys : List Nat) (N : Nat) (hN : 0 < N) (hnd : ys.Nodup)
    (h0 : ∀ x ∈ ys, x ≠ 0) (hb : ∀ x ∈ ys, x < N) : ys.length < N := by
  have hnd2 : (0 :: ys).Nodup := by
    rw [List.nodup_cons]
    exact ⟨fun h => h0 0 h rfl, hnd⟩
  have hsub : (0 :: ys) ⊆ List.range N := by
    intro x hx
    rw [List.mem_range]
    cases hx with
    | head => exact hN
    | tail _ h2 => exact hb x h2
  have hle := (List.subperm_of_subset hnd2 hsub).length_le
  simp only [List.length_cons, List.length_range] at hle
  omega

/-- C20: for a well-formed list whose forward traversal is `xs`, and a node `v`
(not null) that is not in it, after `push_back(v)` the forward traversal from
`begin()` is `xs` followed by `v`, and `size()` is `xs.length + 1`; the loop from
`begin()` to `end()` visits exactly these elements within `size()` steps. -/
theorem C20_push_back_appends (l : helper.list) (xs : List Nat) (v : Nat)
    (hwf : l.WellFormed xs) (haddr : Addressable (v :: xs)) (hv : v ≠ 0) (hnew : v ∉ xs) :
    (l.push_back v).Traversal (xs ++ [v])
    ∧ (l.push_back v).size = xs.length + 1
    ∧ (l.push_back v).traverse (l.push_back v).size (l.push_back v).begin = xs ++ [v] := by
  obtain ⟨htr, _, _, _, hlast, hsize⟩ := hwf
  unfold helper.list.Traversal helper.list.begin at htr
  have hnd : xs.Nodup := traversalFrom_nodup l xs _ htr
  have hnz : ∀ x ∈ xs, x ≠ 0 := traversalFrom_ne_zero l xs _ htr
  have hT : (l.push_back v).TraversalFrom (l.push_back v).m_first (xs ++ [v]) := by
    rw [push_back_first]
    cases hxs : xs.getLast? with
    | none =>
      have hnil : xs = [] := List.getLast?_eq_none_iff.mp hxs
      have hl0 : l.m_last = 0 := by rw [hlast, hxs]; rfl
      rw [if_neg (by simpa using hl0), hnil, List.nil_append, traversalFrom_cons,
        traversalFrom_nil, push_back_next, if_pos rfl]
      exact ⟨rfl, hv, rfl⟩
    | some z =>
      have hlz : l.m_last = z := by rw [hlast, hxs]; rfl
      have hz0 : l.m_last ≠ 0 := by
        rw [hlz]
        exact hnz z (List.mem_of_getLast?_eq_some hxs)
      rw [if_pos hz0]
      exact push_back_traversalFrom l v hv hz0 xs _ htr hnd hnew (by rw [hxs, hlz])
  have hlen : xs.length + 1 < sizeModulus := by
    have hnd2 : (v :: xs).Nodup := List.nodup_cons.mpr ⟨hnew, hnd⟩
    have h := length_lt_of_nodup_bounded (v :: xs) sizeModulus (by decide) hnd2
      (by
        intro x hx
        cases hx with
        | head => exact hv
        | tail _ h2 => exact hnz x h2)
      haddr
    simpa using h
  have hsz : (l.push_back v).size = xs.length + 1 := by
    unfold helper.list.size at hsize ⊢
    rw [push_back_size, hsize, Nat.mod_eq_of_lt hlen]
  refine ⟨hT, hsz, ?_⟩
  rw [hsz]
  exact traverse_of_traversalFrom _ _ _ _ hT (by simp)

theorem wellFormed_singleton :
    ((helper.list.empty helper.list.nullSlots).push_back 16).WellFormed [16] := by
  refine ⟨?_, ?_, ?_, ?_, ?_, ?_⟩
  · unfold helper.list.Traversal
    rw [traversalFrom_cons, traversalFrom_nil]
    exact ⟨rfl, by decide, rfl⟩
  · intro x hx
    have e : x = 16 := by simpa using hx.symm
    subst e
    rfl
  · intro x hx
    have e : x = 16 := by simpa using hx.symm
    subst e
    rfl
  · intro x hx hne
    have e : x = 16 := by simpa using hx
    subst e
    exact absurd rfl hne
  · rfl
  · rfl

theorem addressable_two : Addressable [32, 16] := by
  intro x hx
  have e : x = 32 ∨ x = 16 := by simpa using hx
  unfold sizeModulus
  omega

/-- Witness for C20: `push_back(32)` on the list that holds the single node 16. -/
theorem C20_push_back_appends_witness :
    twoNodeList.Traversal [16, 32] ∧ twoNodeList.size = 2
    ∧ twoNodeList.traverse twoNodeList.size twoNodeList.begin = [16, 32] :=
  C20_push_back_appends ((helper.list.empty helper.list.nullSlots).push_back 16) [16] 32
    wellFormed_singleton addressable_two (by decide) (by decide)

theorem split_append_cons (as bs : List Nat) :
    ∀ (cs ds : List Nat) (w : Nat), as ++ bs = cs ++ w :: ds →
      (∃ e, as = cs ++ w :: e ∧ ds = e ++ bs) ∨ (∃ e, cs = as ++ e ∧ bs = e ++ w :: ds) := by
  induction as with
  | nil =>
    intro cs ds w h
    exact Or.inr ⟨cs, by simp, by simpa using h⟩
  | cons a as ih =>
    intro cs ds w h
    cases cs with
    | nil =>
      simp only [List.cons_append, List.nil_append, List.cons.injEq] at h
      exact Or.inl ⟨as, by simp [h.1], h.2.symm⟩
    | cons c cs =>
      simp only [List.cons_append, List.cons.injEq] at h
      rcases ih cs ds w h.2 with ⟨e, h1, h2⟩ | ⟨e, h1, h2⟩
      · exact Or.inl ⟨e, by simp [h.1, h1], h2⟩
      · exact Or.inr ⟨e, by simp [h.1, h1], h2⟩

theorem head_getD_append (e r : List Nat) (h : e ≠ []) :
    (e ++ r).head?.getD 0 = e.head?.getD 0 := by
  cases e with
  | nil => exact absurd rfl h
  | cons a e => rfl

theorem getLast_getD_append (e r : List Nat) (h : r ≠ []) :
    (e ++ r).getLast?.getD 0 = r.getLast?.getD 0 := by
  rw [List.getLast?_append_of_ne_nil e h]

theorem getLast_getD_concat (e : List Nat) (x : Nat) : (e ++ [x]).getLast?.getD 0 = x := by
  rw [List.getLast?_concat]
  rfl

theorem getLast_getD_mem (e : List Nat) (h : e ≠ []) : e.getLast?.getD 0 ∈ e := by
  rcases List.eq_nil_or_concat e with h0 | ⟨L, b, hb⟩
  · exact absurd h0 h
  · rw [hb, List.concat_eq_append, getLast_getD_concat]
    simp

theorem head_getD_mem (e : List Nat) (h : e ≠ []) : e.head?.getD 0 ∈ e := by
  cases e with
  | nil => exact absurd rfl h
  | cons a e => simp

theorem traversalFrom_append_cons (l : helper.list) (v : Nat) (bs : List Nat) :
    ∀ (as : List Nat) (p : Nat), l.TraversalFrom p (as ++ v :: bs) →
      l.TraversalFrom v (v :: bs) := by
  intro as
  induction as with
  | nil =>
    intro p h
    have h2 := h
    rw [List.nil_append, traversalFrom_cons] at h2
    rw [h2.1] at h
    exact h
  | cons a as ih =>
    intro p h
    rw [List.cons_append, traversalFrom_cons] at h
    exact ih _ h.2.2

theorem traversalFrom_next (l : helper.list) (v : Nat) (bs : List Nat)
    (h : l.TraversalFrom v (v :: bs)) : l.next v = bs.head?.getD 0 := by
  rw [traversalFrom_cons] at h
  cases bs with
  | nil =>
    have h3 := h.2.2
    rw [traversalFrom_nil] at h3
    rw [h3]
    rfl
  | cons b bs =>
    have h3 := h.2.2
    rw [traversalFrom_cons] at h3
    rw [h3.1]
    rfl

theorem traversalFrom_first (l : helper.list) (p : Nat) (xs : List Nat)
    (h : l.TraversalFrom p xs) : p = xs.head?.getD 0 := by
  cases xs with
  | nil =>
    rw [traversalFrom_nil] at h
    rw [h]
    rfl
  | cons x xs =>
    rw [traversalFrom_cons] at h
    rw [h.1]
    rfl

theorem not_last_of_nodup (as bs : List Nat) (u v : Nat)
    (hnd : (as ++ u :: v :: bs).Nodup) : (as ++ u :: v :: bs).getLast? ≠ some u := by
  intro h
  have e : (as ++ u :: v :: bs).getLast? = (v :: bs).getLast? := by
    have e1 : as ++ u :: v :: bs = (as ++ [u]) ++ (v :: bs) := by simp
    rw [e1, List.getLast?_append_of_ne_nil _ (by simp)]
  rw [e] at h
  have hm : u ∈ v :: bs := List.mem_of_getLast?_eq_some h
  have hnd2 : (u :: v :: bs).Nodup := (List.nodup_append.mp hnd).2.1
  exact (List.nodup_cons.mp hnd2).1 hm

theorem linked_of_wellFormed (l : helper.list) (xs : List Nat) (h : l.WellFormed xs) :
    l.Linked xs := by
  obtain ⟨htr, hfirst, _, hpn, hlast, hsize⟩ := h
  unfold helper.list.Traversal helper.list.begin at htr
  have hnd := traversalFrom_nodup l xs _ htr
  refine ⟨hnd, traversalFrom_ne_zero l xs _ htr, traversalFrom_first l _ xs htr, hlast,
    hsize, ?_⟩
  intro as v bs hx
  subst hx
  have hv := traversalFrom_append_cons l v bs as _ htr
  refine ⟨traversalFrom_next l v bs hv, ?_⟩
  rcases List.eq_nil_or_concat as with h0 | ⟨L, u, hu⟩
  · subst h0
    exact hfirst v rfl
  · rw [List.concat_eq_append] at hu
    subst hu
    rw [getLast_getD_concat]
    have e1 : L ++ [u] ++ v :: bs = L ++ u :: v :: bs := by simp
    rw [e1] at htr hnd hpn
    have hu2 := traversalFrom_append_cons l u (v :: bs) L _ htr
    have hnext : l.next u = v := traversalFrom_next l u (v :: bs) hu2
    have := hpn u (by simp) (not_last_of_nodup L bs u v hnd)
    rw [hnext] at this
    exact this

theorem traversalFrom_of_next (l : helper.list) (xs : List Nat) (hnz : ∀ x ∈ xs, x ≠ 0)
    (hnext : ∀ (as : List Nat) (v : Nat) (bs : List Nat), xs = as ++ v :: bs →
      l.next v = bs.head?.getD 0) :
    ∀ (ys pre : List Nat), xs = pre ++ ys → l.TraversalFrom (ys.head?.getD 0) ys := by
  intro ys
  induction ys with
  | nil =>
    intro pre _
    rw [traversalFrom_nil]
    rfl
  | cons y ys ih =>
    intro pre hx
    rw [traversalFrom_cons]
    refine ⟨rfl, ?_, ?_⟩
    · exact hnz y (by rw [hx]; simp)
    · have e : (y :: ys).head?.getD 0 = y := rfl
      rw [e, hnext pre y ys hx]
      exact ih (pre ++ [y]) (by rw [hx]; simp)

theorem wellFormed_of_linked (l : helper.list) (xs : List Nat) (h : l.Linked xs) :
    l.WellFormed xs := by
  obtain ⟨hnd, hnz, hfirst, hlast, hsize, hlink⟩ := h
  refine ⟨?_, ?_, ?_, ?_, hlast, hsize⟩
  · unfold helper.list.Traversal helper.list.begin
    rw [hfirst]
    exact traversalFrom_of_next l xs hnz (fun as v bs hx => (hlink as v bs hx).1) xs [] rfl
  · intro x hx
    obtain ⟨ys, hys⟩ := List.head?_eq_some_iff.mp hx
    exact (hlink [] x ys (by rw [hys]; rfl)).2
  · intro x hx
    obtain ⟨ys, hys⟩ := List.getLast?_eq_some_iff.mp hx
    exact (hlink ys x [] hys).1
  · intro x hx hne
    obtain ⟨as, bs, hab⟩ := List.append_of_mem hx
    cases bs with
    | nil =>
      exfalso
      apply hne
      rw [hab]
      exact List.getLast?_concat as
    | cons y bs =>
      have h1 := (hlink as x (y :: bs) hab).1
      have h2 := (hlink (as ++ [x]) y bs (by rw [hab]; simp)).2
      rw [getLast_getD_concat] at h2
      have e : (y :: bs).head?.getD 0 = y := rfl
      rw [h1, e]
      exact h2

theorem push_back_prev (l : helper.list) (v q : Nat) :
    (l.push_back v).prev q = if q = v then l.m_last else l.prev q := by
  unfold helper.list.push_back helper.list.prev helper.list.setNext helper.list.setPrev
  by_cases hl : l.m_last ≠ 0
  · by_cases hq : q = v
    · simp [hl, hq]
    · by_cases hq2 : q = l.m_last
      · subst hq2
        simp [hl, hq]
      · simp [hl, hq, hq2]
  · by_cases hq : q = v
    · simp [hl, hq]
    · simp [hl, hq]

theorem setNext_next (l : helper.list) (p x q : Nat) :
    (l.setNext p x).next q = if q = p then x else l.next q := by
  unfold helper.list.setNext helper.list.next
  by_cases h : q = p
  · simp [h]
  · simp [h]

theorem setNext_prev (l : helper.list) (p x q : Nat) : (l.setNext p x).prev q = l.prev q := by
  unfold helper.list.setNext helper.list.prev
  by_cases h : q = p
  · simp [h]
  · simp [h]

theorem setPrev_prev (l : helper.list) (p x q : Nat) :
    (l.setPrev p x).prev q = if q = p then x else l.prev q := by
  unfold helper.list.setPrev helper.list.prev
  by_cases h : q = p
  · simp [h]
  · simp [h]

theorem setPrev_next (l : helper.list) (p x q : Nat) : (l.setPrev p x).next q = l.next q := by
  unfold helper.list.setPrev helper.list.next
  by_cases h : q = p
  · simp [h]
  · simp [h]

theorem removeFromPrev_fields (l : helper.list) (v : Nat) :
    (l.removeFromPrev v).m_first = (if v = l.m_first then l.next l.m_first else l.m_first)
    ∧ (l.removeFromPrev v).m_last = l.m_last
    ∧ (l.removeFromPrev v).m_size = l.m_size
    ∧ (∀ q, (l.removeFromPrev v).prev q = l.prev q)
    ∧ (∀ q, (l.removeFromPrev v).next q
        = if v ≠ l.m_first ∧ l.prev v ≠ 0 ∧ q = l.prev v then l.next v else l.next q) := by
  unfold helper.list.removeFromPrev
  by_cases h1 : v = l.m_first
  · rw [if_pos h1, if_pos h1]
    refine ⟨rfl, rfl, rfl, fun _ => rfl, ?_⟩
    intro q
    rw [if_neg (fun h => h.1 h1)]
    rfl
  · rw [if_neg h1, if_neg h1]
    by_cases h2 : l.prev v ≠ 0
    · rw [if_pos h2]
      refine ⟨rfl, rfl, rfl, fun q => setNext_prev l _ _ q, ?_⟩
      intro q
      rw [setNext_next]
      by_cases hq : q = l.prev v
      · rw [if_pos hq, if_pos ⟨h1, h2, hq⟩]
      · rw [if_neg hq, if_neg (fun h => hq h.2.2)]
    · rw [if_neg h2]
      refine ⟨rfl, rfl, rfl, fun _ => rfl, ?_⟩
      intro q
      rw [if_neg (fun h => h2 h.2.1)]

theorem removeFromNext_fields (l : helper.list) (v : Nat) :
    (l.removeFromNext v).m_last = (if v = l.m_last then l.prev l.m_last else l.m_last)
    ∧ (l.removeFromNext v).m_first = l.m_first
    ∧ (l.removeFromNext v).m_size = l.m_size
    ∧ (∀ q, (l.removeFromNext v).next q = l.next q)
    ∧ (∀ q, (l.removeFromNext v).prev q
        = if v ≠ l.m_last ∧ l.next v ≠ 0 ∧ q = l.next v then l.prev v else l.prev q) := by
  unfold helper.list.removeFromNext
  by_cases h1 : v = l.m_last
  · rw [if_pos h1, if_pos h1]
    refine ⟨rfl, rfl, rfl, fun _ => rfl, ?_⟩
    intro q
    rw [if_neg (fun h => h.1 h1)]
    rfl
  · rw [if_neg h1, if_neg h1]
    by_cases h2 : l.next v ≠ 0
    · rw [if_pos h2]
      refine ⟨rfl, rfl, rfl, fun q => setPrev_next l _ _ q, ?_⟩
      intro q
      rw [setPrev_prev]
      by_cases hq : q = l.next v
      · rw [if_pos hq, if_pos ⟨h1, h2, hq⟩]
      · rw [if_neg hq, if_neg (fun h => hq h.2.2)]
    · rw [if_neg h2]
      refine ⟨rfl, rfl, rfl, fun _ => rfl, ?_⟩
      intro q
      rw [if_neg (fun h => h2 h.2.1)]

theorem removeFromPrev_next_self (l : helper.list) (v : Nat) :
    (l.removeFromPrev v).next v = l.next v := by
  rw [(removeFromPrev_fields l v).2.2.2.2 v]
  split <;> rfl

theorem remove_first (l : helper.list) (v : Nat) :
    (l.remove v).m_first = if v = l.m_first then l.next l.m_first else l.m_first := by
  have h : (l.remove v).m_first = ((l.removeFromPrev v).removeFromNext v).m_first := by
    unfold helper.list.remove
    simp only []
  rw [h, (removeFromNext_fields _ v).2.1, (removeFromPrev_fields l v).1]

theorem remove_last (l : helper.list) (v : Nat) :
    (l.remove v).m_last = if v = l.m_last then l.prev l.m_last else l.m_last := by
  have h : (l.remove v).m_last = ((l.removeFromPrev v).removeFromNext v).m_last := by
    unfold helper.list.remove
    simp only []
  rw [h, (removeFromNext_fields _ v).1, (removeFromPrev_fields l v).2.1,
    (removeFromPrev_fields l v).2.2.2.1]

theorem remove_size (l : helper.list) (v : Nat) :
    (l.remove v).m_size = if l.m_size = 0 then sizeModulus - 1 else l.m_size - 1 := by
  have h : (l.remove v).m_size
      = if ((l.removeFromPrev v).removeFromNext v).m_size = 0 then sizeModulus - 1
        else ((l.removeFromPrev v).removeFromNext v).m_size - 1 := by
    unfold helper.list.remove
    simp only []
  rw [h, (removeFromNext_fields _ v).2.2.1, (removeFromPrev_fields l v).2.2.1]

theorem remove_next (l : helper.list) (v q : Nat) :
    (l.remove v).next q
      = if v ≠ l.m_first ∧ l.prev v ≠ 0 ∧ q = l.prev v then l.next v else l.next q := by
  have h : (l.remove v).next q = ((l.removeFromPrev v).removeFromNext v).next q := by
    unfold helper.list.remove helper.list.next
    simp only []
  rw [h, (removeFromNext_fields _ v).2.2.2.1, (removeFromPrev_fields l v).2.2.2.2]

theorem remove_prev (l : helper.list) (v q : Nat) :
    (l.remove v).prev q
      = if v ≠ l.m_last ∧ l.next v ≠ 0 ∧ q = l.next v then l.prev v else l.prev q := by
  have h : (l.remove v).prev q = ((l.removeFromPrev v).removeFromNext v).prev q := by
    unfold helper.list.remove helper.list.prev
    simp only []
  rw [h, (removeFromNext_fields _ v).2.2.2.2, (removeFromPrev_fields l v).2.1,
    removeFromPrev_next_self, (removeFromPrev_fields l v).2.2.2.1,
    (removeFromPrev_fields l v).2.2.2.1]

theorem getLast_getD_mid (cs e : List Nat) (w : Nat) :
    (cs ++ w :: e).getLast?.getD 0 = if e = [] then w else e.getLast?.getD 0 := by
  rw [getLast_getD_append cs (w :: e) (by simp)]
  cases e with
  | nil => rfl
  | cons a e =>
    rw [List.getLast?_cons_cons, if_neg (by simp)]

theorem head_getD_mid (cs e : List Nat) (w : Nat) :
    (cs ++ w :: e).head?.getD 0 = if cs = [] then w else cs.head?.getD 0 := by
  cases cs with
  | nil => rfl
  | cons a cs => rfl

theorem not_mem_of_nodup_mid (cs e : List Nat) (w : Nat) (h : (cs ++ w :: e).Nodup) :
    w ∉ cs ∧ w ∉ e := by
  have h2 := (List.nodup_cons.mp (List.nodup_middle.mp h)).1
  constructor
  · intro hm
    exact h2 (List.mem_append_left _ hm)
  · intro hm
    exact h2 (List.mem_append_right _ hm)

theorem push_back_linked (l : helper.list) (xs : List Nat) (v : Nat) (h : l.Linked xs)
    (haddr : Addressable (v :: xs)) (hv : v ≠ 0) (hnew : v ∉ xs) :
    (l.push_back v).Linked (xs ++ [v]) := by
  obtain ⟨hnd, hnz, hfirst, hlast, hsize, hlink⟩ := h
  have hlast0 : xs ≠ [] → l.m_last ≠ 0 := by
    intro hne
    rw [hlast]
    exact hnz _ (getLast_getD_mem xs hne)
  refine ⟨?_, ?_, ?_, ?_, ?_, ?_⟩
  · refine List.nodup_append.mpr ⟨hnd, List.nodup_singleton _, ?_⟩
    intro a ha hb
    have e : a = v := by simpa using hb
    rw [e] at ha
    exact hnew ha
  · intro x hx
    rcases List.mem_append.mp hx with h1 | h1
    · exact hnz x h1
    · have e : x = v := by simpa using h1
      rw [e]
      exact hv
  · rw [push_back_first]
    by_cases hx : xs = []
    · have hl0 : l.m_last = 0 := by rw [hlast, hx]; rfl
      rw [if_neg (by simpa using hl0), hx]
      rfl
    · rw [if_pos (hlast0 hx), hfirst, head_getD_append xs [v] hx]
  · rw [push_back_last, getLast_getD_concat]
  · rw [push_back_size, hsize]
    have hlen : xs.length + 1 < sizeModulus := by
      have hnd2 : (v :: xs).Nodup := List.nodup_cons.mpr ⟨hnew, hnd⟩
      have h := length_lt_of_nodup_bounded (v :: xs) sizeModulus (by decide) hnd2
        (by
          intro x hx
          cases hx with
          | head => exact hv
          | tail _ h2 => exact hnz x h2)
        haddr
      simpa using h
    rw [Nat.mod_eq_of_lt hlen]
    simp
  · intro as w bs hx
    rcases split_append_cons xs [v] as bs w hx with ⟨e, h1, h2⟩ | ⟨e, h1, h2⟩
    · have hold := hlink as w e h1
      have hwx : w ∈ xs := by rw [h1]; simp
      have hwv : w ≠ v := fun e => hnew (by rw [← e]; exact hwx)
      have hnd1 : (as ++ w :: e).Nodup := by rw [← h1]; exact hnd
      have hwe := (not_mem_of_nodup_mid as e w hnd1).2
      have hml : l.m_last = if e = [] then w else e.getLast?.getD 0 := by
        rw [hlast, h1, getLast_getD_mid]
      refine ⟨?_, ?_⟩
      · rw [push_back_next, if_neg hwv, h2]
        by_cases he : e = []
        · rw [if_pos he] at hml
          have hxs : xs ≠ [] := by rw [h1]; simp
          rw [if_pos ⟨hlast0 hxs, hml.symm⟩, he]
          rfl
        · rw [if_neg he] at hml
          have hne : w ≠ l.m_last := by
            intro e2
            apply hwe
            rw [e2, hml]
            exact getLast_getD_mem e he
          rw [if_neg (fun hh => hne hh.2), hold.1, head_getD_append e [v] he]
      · rw [push_back_prev, if_neg hwv]
        exact hold.2
    · cases e with
      | nil =>
        simp only [List.nil_append, List.cons.injEq] at h2
        simp only [List.append_nil] at h1
        obtain ⟨hvw, hbs⟩ := h2
        subst hvw
        rw [← hbs, h1]
        refine ⟨?_, ?_⟩
        · rw [push_back_next, if_pos rfl]
          rfl
        · rw [push_back_prev, if_pos rfl, hlast]
      | cons a e =>
        exfalso
        simp only [List.cons_append, List.cons.injEq] at h2
        have := h2.2
        simp at this

theorem remove_linked (l : helper.list) (as bs : List Nat) (v : Nat)
    (h : l.Linked (as ++ v :: bs)) : (l.remove v).Linked (as ++ bs) := by
  obtain ⟨hnd, hnz, hfirst, hlast, hsize, hlink⟩ := h
  have hv := hlink as v bs rfl
  have hvmem := not_mem_of_nodup_mid as bs v hnd
  have hnd2 : (as ++ bs).Nodup := (List.nodup_cons.mp (List.nodup_middle.mp hnd)).2
  have hdisj : ∀ x, x ∈ as → x ∈ bs → False := by
    intro x h1 h2
    exact (List.nodup_append.mp hnd2).2.2 h1 h2
  have hnz2 : ∀ x ∈ as ++ bs, x ≠ 0 := by
    intro x hx
    apply hnz
    rcases List.mem_append.mp hx with h1 | h1
    · exact List.mem_append_left _ h1
    · exact List.mem_append_right _ (List.mem_cons_of_mem _ h1)
  have hf : v = l.m_first ↔ as = [] := by
    rw [hfirst, head_getD_mid]
    constructor
    · intro e
      by_contra hne
      rw [if_neg hne] at e
      apply hvmem.1
      rw [e]
      exact head_getD_mem as hne
    · intro e
      rw [if_pos e]
  have hl : v = l.m_last ↔ bs = [] := by
    rw [hlast, getLast_getD_mid]
    constructor
    · intro e
      by_contra hne
      rw [if_neg hne] at e
      apply hvmem.2
      rw [e]
      exact getLast_getD_mem bs hne
    · intro e
      rw [if_pos e]
  have hp0 : l.prev v ≠ 0 ↔ as ≠ [] := by
    rw [hv.2]
    constructor
    · intro h0 e
      apply h0
      rw [e]
      rfl
    · intro hne
      exact hnz2 _ (List.mem_append_left _ (getLast_getD_mem as hne))
  have hn0 : l.next v ≠ 0 ↔ bs ≠ [] := by
    rw [hv.1]
    constructor
    · intro h0 e
      apply h0
      rw [e]
      rfl
    · intro hne
      exact hnz2 _ (List.mem_append_right _ (head_getD_mem bs hne))
  have hnext : ∀ q, (l.remove v).next q
      = if as ≠ [] ∧ q = as.getLast?.getD 0 then bs.head?.getD 0 else l.next q := by
    intro q
    rw [remove_next]
    by_cases c : as ≠ [] ∧ q = as.getLast?.getD 0
    · rw [if_pos c, if_pos ⟨fun e => c.1 (hf.mp e), hp0.mpr c.1, by rw [hv.2]; exact c.2⟩, hv.1]
    · rw [if_neg c, if_neg]
      intro hh
      exact c ⟨hp0.mp hh.2.1, by rw [← hv.2]; exact hh.2.2⟩
  have hprev : ∀ q, (l.remove v).prev q
      = if bs ≠ [] ∧ q = bs.head?.getD 0 then as.getLast?.getD 0 else l.prev q := by
    intro q
    rw [remove_prev]
    by_cases c : bs ≠ [] ∧ q = bs.head?.getD 0
    · rw [if_pos c, if_pos ⟨fun e => c.1 (hl.mp e), hn0.mpr c.1, by rw [hv.1]; exact c.2⟩, hv.2]
    · rw [if_neg c, if_neg]
      intro hh
      exact c ⟨hn0.mp hh.2.1, by rw [← hv.1]; exact hh.2.2⟩
  refine ⟨hnd2, hnz2, ?_, ?_, ?_, ?_⟩
  · rw [remove_first]
    by_cases ha : as = []
    · rw [if_pos (hf.mpr ha), ← hf.mpr ha, hv.1, ha]
      rfl
    · rw [if_neg (fun e => ha (hf.mp e)), hfirst, head_getD_append as _ ha,
        head_getD_append as _ ha]
  · rw [remove_last]
    by_cases hb : bs = []
    · rw [if_pos (hl.mpr hb), ← hl.mpr hb, hv.2, hb, List.append_nil]
    · rw [if_neg (fun e => hb (hl.mp e)), hlast, getLast_getD_mid, if_neg hb,
        getLast_getD_append as bs hb]
  · rw [remove_size, hsize]
    simp
  · intro cs w ds hx
    rcases split_append_cons as bs cs ds w hx with ⟨e, h1, h2⟩ | ⟨e, h1, h2⟩
    · have hold := hlink cs w (e ++ v :: bs) (by rw [h1]; simp)
      have hwas : w ∈ as := by rw [h1]; simp
      have hnd1 : (cs ++ w :: e).Nodup := by
        rw [← h1]
        exact (List.nodup_append.mp hnd2).1
      have hwe := (not_mem_of_nodup_mid cs e w hnd1).2
      have hane : as ≠ [] := by rw [h1]; simp
      refine ⟨?_, ?_⟩
      · rw [hnext, h2]
        by_cases he : e = []
        · have hw : w = as.getLast?.getD 0 := by
            rw [h1, getLast_getD_mid, if_pos he]
          rw [if_pos ⟨hane, hw⟩, he]
          rfl
        · have hw : w ≠ as.getLast?.getD 0 := by
            rw [h1, getLast_getD_mid, if_neg he]
            intro e2
            apply hwe
            rw [e2]
            exact getLast_getD_mem e he
          rw [if_neg (fun hh => hw hh.2), hold.1, head_getD_append e _ he,
            head_getD_append e _ he]
      · rw [hprev, if_neg, hold.2]
        intro hh
        apply hdisj w hwas
        rw [hh.2]
        exact head_getD_mem bs hh.1
    · have hold := hlink (as ++ v :: e) w ds (by rw [h2]; simp)
      have hwbs : w ∈ bs := by rw [h2]; simp
      have hnd1 : (e ++ w :: ds).Nodup := by
        rw [← h2]
        exact (List.nodup_append.mp hnd2).2.1
      have hwe := (not_mem_of_nodup_mid e ds w hnd1).1
      have hbne : bs ≠ [] := by rw [h2]; simp
      refine ⟨?_, ?_⟩
      · rw [hnext, if_neg, hold.1]
        intro hh
        apply hdisj w _ hwbs
        rw [hh.2]
        exact getLast_getD_mem as hh.1
      · rw [hprev, h1]
        by_cases he : e = []
        · have hw : w = bs.head?.getD 0 := by
            rw [h2, head_getD_mid, if_pos he]
          rw [if_pos ⟨hbne, hw⟩, he, List.append_nil]
        · have hw : w ≠ bs.head?.getD 0 := by
            rw [h2, head_getD_mid, if_neg he]
            intro e2
            apply hwe
            rw [e2]
            exact head_getD_mem e he
          rw [if_neg (fun hh => hw hh.2), hold.2, getLast_getD_mid, if_neg he,
            getLast_getD_append as e he]

theorem empty_wellFormed (slot : Nat → helper.list_slot) :
    (helper.list.empty slot).WellFormed [] := by
  refine ⟨?_, ?_, ?_, ?_, rfl, rfl⟩
  · unfold helper.list.Traversal
    rw [traversalFrom_nil]
    rfl
  · intro x hx
    cases hx
  · intro x hx
    cases hx
  · intro x hx
    cases hx

theorem push_back_wellFormed (l : helper.list) (xs : List Nat) (v : Nat)
    (h : l.WellFormed xs) (haddr : Addressable (v :: xs)) (hv : v ≠ 0) (hnew : v ∉ xs) :
    (l.push_back v).WellFormed (xs ++ [v]) :=
  wellFormed_of_linked _ _ (push_back_linked l xs v (linked_of_wellFormed l xs h) haddr hv hnew)

theorem remove_wellFormed (l : helper.list) (as bs : List Nat) (v : Nat)
    (h : l.WellFormed (as ++ v :: bs)) : (l.remove v).WellFormed (as ++ bs) :=
  wellFormed_of_linked _ _ (remove_linked l as bs v (linked_of_wellFormed l _ h))

theorem eraseOrAdvanceLoop_spec (eraseIt : Nat → Bool) :
    ∀ (rest kept : List Nat) (l : helper.list) (visited : List Nat) (fuel : Nat),
      l.WellFormed (kept ++ rest) → rest.length ≤ fuel →
      (helper.list.eraseOrAdvanceLoop eraseIt fuel l (rest.head?.getD 0) visited).2
          = visited ++ rest
      ∧ (helper.list.eraseOrAdvanceLoop eraseIt fuel l (rest.head?.getD 0) visited).1.WellFormed
          (kept ++ rest.filter (fun y => !eraseIt y)) := by
  intro rest
  induction rest with
  | nil =>
    intro kept l visited fuel hwf _
    have e : ([] : List Nat).head?.getD 0 = 0 := rfl
    rw [e]
    cases fuel with
    | zero =>
      unfold helper.list.eraseOrAdvanceLoop
      simpa using hwf
    | succ f =>
      unfold helper.list.eraseOrAdvanceLoop
      have hend : ¬ ((0 : Nat) ≠ l.end_) := fun h => h rfl
      rw [if_neg hend]
      simpa using hwf
  | cons x rest ih =>
    intro kept l visited fuel hwf hf
    have e : (x :: rest).head?.getD 0 = x := rfl
    rw [e]
    have hlk := linked_of_wellFormed l _ hwf
    have hx0 : x ≠ 0 := hlk.2.1 x (by simp)
    have hnext : l.next x = rest.head?.getD 0 := (hlk.2.2.2.2.2 kept x rest rfl).1
    cases fuel with
    | zero => simp at hf
    | succ f =>
      have hf2 : rest.length ≤ f := by simpa using hf
      unfold helper.list.eraseOrAdvanceLoop
      have hne : x ≠ l.end_ := hx0
      rw [if_pos hne]
      by_cases hc : eraseIt x = true
      · rw [if_pos hc]
        have hwf2 : (l.erase x).1.WellFormed (kept ++ rest) := remove_wellFormed l kept rest x hwf
        have hit : (l.erase x).2 = rest.head?.getD 0 := hnext
        rw [hit]
        have := ih kept (l.erase x).1 (visited ++ [x]) f hwf2 hf2
        rw [List.filter_cons_of_neg (by simp [hc])]
        simpa using this
      · rw [if_neg hc]
        have hit : helper.list.iterator.incr l x = rest.head?.getD 0 := hnext
        rw [hit]
        have hwf2 : l.WellFormed ((kept ++ [x]) ++ rest) := by simpa using hwf
        have := ih (kept ++ [x]) l (visited ++ [x]) f hwf2 hf2
        rw [List.filter_cons_of_pos (by simp [hc])]
        simpa using this

/-- C21: for a well-formed list whose forward traversal is `as`, then `v`, then
`bs` (so `v` may be the first, the last, a middle or the only element), after
`remove(v)` the forward traversal is `as` followed by `bs`, the other elements
in their previous order, and `size()` is one less. -/
theorem C21_remove_unlinks_member (l : helper.list) (as bs : List Nat) (v : Nat)
    (hwf : l.WellFormed (as ++ v :: bs)) :
    (l.remove v).Traversal (as ++ bs)
    ∧ (l.remove v).size = (as ++ v :: bs).length - 1
    ∧ (l.remove v).traverse (l.remove v).size (l.remove v).begin = as ++ bs := by
  have h := remove_wellFormed l as bs v hwf
  have hsz : (l.remove v).size = (as ++ bs).length := h.2.2.2.2.2
  refine ⟨h.1, ?_, ?_⟩
  · rw [hsz]
    simp
  · rw [hsz]
    exact traverse_of_traversalFrom _ _ _ _ h.1 (Nat.le_refl _)

theorem addressable_three : Addressable [48, 16, 32] := by
  intro x hx
  have e : x = 48 ∨ x = 16 ∨ x = 32 := by simpa using hx
  unfold sizeModulus
  omega

theorem wellFormed_twoNodeList : twoNodeList.WellFormed [16, 32] :=
  push_back_wellFormed _ [16] 32 wellFormed_singleton addressable_two (by decide) (by decide)

theorem wellFormed_threeNodeList : threeNodeList.WellFormed [16, 32, 48] :=
  push_back_wellFormed twoNodeList [16, 32] 48 wellFormed_twoNodeList addressable_three
    (by decide) (by decide)

/-- Witness for C21: removal of the middle node 32 from the list 16, 32, 48. -/
theorem C21_remove_unlinks_member_witness :
    (threeNodeList.remove 32).Traversal [16, 48]
    ∧ (threeNodeList.remove 32).size = 2
    ∧ (threeNodeList.remove 32).traverse (threeNodeList.remove 32).size
        (threeNodeList.remove 32).begin = [16, 48] :=
  C21_remove_unlinks_member threeNodeList [16] [48] 32 wellFormed_threeNodeList

/-- C22: the well-formedness predicate (first element has `prev` null, last
element has `next` null, `prev(next(x)) = x` for every member but the last,
`m_last` is the final element of the traversal from `m_first`, `size()` is the
number of elements traversed) holds for the empty list, still holds after
`push_back` of a node that is not a member, and still holds after `remove` of a
member. -/
theorem C22_wellFormed_is_invariant :
    (∀ slot : Nat → helper.list_slot, (helper.list.empty slot).WellFormed [])
    ∧ (∀ (l : helper.list) (xs : List Nat) (v : Nat), l.WellFormed xs →
        Addressable (v :: xs) → v ≠ 0 → v ∉ xs → (l.push_back v).WellFormed (xs ++ [v]))
    ∧ (∀ (l : helper.list) (as : List Nat) (v : Nat) (bs : List Nat),
        l.WellFormed (as ++ v :: bs) → (l.remove v).WellFormed (as ++ bs)) :=
  ⟨empty_wellFormed, push_back_wellFormed,
    fun l as v bs h => remove_wellFormed l as bs v h⟩

/-- Witness for C22: the empty list, then 16 and 32 appended, then 16 removed. -/
theorem C22_wellFormed_is_invariant_witness :
    (helper.list.empty helper.list.nullSlots).WellFormed []
    ∧ ((helper.list.empty helper.list.nullSlots).push_back 16).WellFormed [16]
    ∧ (twoNodeList.remove 16).WellFormed [32] :=
  ⟨C22_wellFormed_is_invariant.1 helper.list.nullSlots,
    C22_wellFormed_is_invariant.2.1 (helper.list.empty helper.list.nullSlots) [] 16
      (C22_wellFormed_is_invariant.1 helper.list.nullSlots)
      (by intro x hx; have e : x = 16 := by simpa using hx
          rw [e]; unfold sizeModulus; omega)
      (by decide) (by decide),
    C22_wellFormed_is_invariant.2.2 twoNodeList [] 16 [32] wellFormed_twoNodeList⟩

/-- C23: for a well-formed list and an iterator at the member `x`, with `as`
before it and `bs` after it, `erase(it)` leaves the well-formed list `as`, `bs`,
in which `x` no longer occurs, and returns an iterator at the first element of
`bs`, or `end()` when `bs` is empty.  A loop from `begin()` that at each element
either erases it or steps over it visits the elements of the original list in
order, each once, ends by its own test, and leaves the elements stepped over. -/
theorem C23_erase_returns_successor (l : helper.list) (as bs : List Nat) (x : Nat)
    (hwf : l.WellFormed (as ++ x :: bs)) :
    (l.erase x).1.WellFormed (as ++ bs)
    ∧ x ∉ as ++ bs
    ∧ (l.erase x).2 = bs.head?.getD l.end_
    ∧ (∀ (eraseIt : Nat → Bool) (fuel : Nat), (as ++ x :: bs).length ≤ fuel →
        (helper.list.eraseOrAdvanceLoop eraseIt fuel l l.begin []).2 = as ++ x :: bs
        ∧ (helper.list.eraseOrAdvanceLoop eraseIt fuel l l.begin []).1.WellFormed
            ((as ++ x :: bs).filter (fun y => !eraseIt y))) := by
  have hlk := linked_of_wellFormed l _ hwf
  refine ⟨remove_wellFormed l as bs x hwf, ?_, (hlk.2.2.2.2.2 as x bs rfl).1, ?_⟩
  · have h2 := not_mem_of_nodup_mid as bs x hlk.1
    intro hm
    rcases List.mem_append.mp hm with h | h
    · exact h2.1 h
    · exact h2.2 h
  · intro eraseIt fuel hf
    have hb : l.begin = (as ++ x :: bs).head?.getD 0 := hlk.2.2.1
    rw [hb]
    have := eraseOrAdvanceLoop_spec eraseIt (as ++ x :: bs) [] l [] fuel hwf hf
    simpa using this

/-- Witness for C23: `erase` at the first node of the list 16, 32, and the loop
that erases 16 and steps over 32. -/
theorem C23_erase_returns_successor_witness :
    (twoNodeList.erase 16).1.WellFormed [32]
    ∧ 16 ∉ [32]
    ∧ (twoNodeList.erase 16).2 = 32
    ∧ (helper.list.eraseOrAdvanceLoop (fun y => y == 16) 2 twoNodeList twoNodeList.begin []).2
        = [16, 32] :=
  ⟨(C23_erase_returns_successor twoNodeList [] [32] 16 wellFormed_twoNodeList).1,
    (C23_erase_returns_successor twoNodeList [] [32] 16 wellFormed_twoNodeList).2.1,
    (C23_erase_returns_successor twoNodeList [] [32] 16 wellFormed_twoNodeList).2.2.1,
    ((C23_erase_returns_successor twoNodeList [] [32] 16 wellFormed_twoNodeList).2.2.2
      (fun y => y == 16) 2 (Nat.le_refl _)).1⟩

/-! ### Exhaustion of the container enumerators, self-assignment -/

theorem getNextCalls_add {α : Type}
    (getNext : ContainerPtrEnumerator α → Fetched × ContainerPtrEnumerator α) :
    ∀ (a b : Nat) (e : ContainerPtrEnumerator α),
      getNextCalls getNext (a + b) e
        = ((getNextCalls getNext a e).1 ++ (getNextCalls getNext b (getNextCalls getNext a e).2).1,
            (getNextCalls getNext b (getNextCalls getNext a e).2).2) := by
  intro a
  induction a with
  | zero =>
    intro b e
    simp [getNextCalls]
  | succ a ih =>
    intro b e
    have h : a + 1 + b = (a + b) + 1 := by omega
    have step : ∀ (k : Nat) (e : ContainerPtrEnumerator α),
        getNextCalls getNext (k + 1) e
          = ((getNext e).1 :: (getNextCalls getNext k (getNext e).2).1,
              (getNextCalls getNext k (getNext e).2).2) := fun _ _ => rfl
    rw [h, step (a + b) e, ih b (getNext e).2, step a e]
    rfl

theorem vector_getNext_at_end (o : List Nat) :
    ∀ n, getNextCalls PtrEnumerator.vector.getNext n { o := o, it := o.length }
      = (List.replicate n Fetched.null, { o := o, it := o.length }) := by
  intro n
  induction n with
  | zero => rfl
  | succ n ih =>
    unfold getNextCalls
    have h : PtrEnumerator.vector.getNext { o := o, it := o.length }
        = (Fetched.null, { o := o, it := o.length }) := by
      unfold PtrEnumerator.vector.getNext ContainerPtrEnumerator.hasNext
      simp
    simp only []
    rw [h, ih]
    rfl

theorem getNextCalls_past_end {α : Type} (addr : α → Nat)
    (getNext : ContainerPtrEnumerator α → Fetched × ContainerPtrEnumerator α)
    (hdef : ∀ e : ContainerPtrEnumerator α, getNext e = (e.read addr, e.advance))
    (o : List α) :
    (getNextCalls getNext (o.length + 1) (ContainerPtrEnumerator.new o)).1
      = o.map (fun x => Fetched.handle (addr x)) ++ [Fetched.pastEnd] := by
  have step : getNextCalls getNext 1 { o := o, it := o.length }
      = ([(getNext { o := o, it := o.length }).1], (getNext { o := o, it := o.length }).2) :=
    rfl
  rw [getNextCalls_add, getNextCalls_all addr getNext (fun e _ => hdef e) o]
  simp only []
  rw [step, hdef]
  unfold ContainerPtrEnumerator.read
  simp

/-- C24: the vector enumerator returns the stored handles and then null on every
further call, and never reads at `end()`.  The deque, list, set, map and
unordered_map enumerators test nothing: after the stored handles have been
returned (at once, for an empty container) the next call reads through the
iterator at `end()`. -/
theorem C24_only_vector_signals_exhaustion (o : List Nat) (m : List MapEntry) (n : Nat) :
    (getNextCalls PtrEnumerator.vector.getNext (o.length + n) (ContainerPtrEnumerator.new o)).1
      = o.map Fetched.handle ++ List.replicate n Fetched.null
    ∧ (getNextCalls PtrEnumerator.deque.getNext (o.length + 1) (ContainerPtrEnumerator.new o)).1
      = o.map Fetched.handle ++ [Fetched.pastEnd]
    ∧ (getNextCalls PtrEnumerator.list.getNext (o.length + 1) (ContainerPtrEnumerator.new o)).1
      = o.map Fetched.handle ++ [Fetched.pastEnd]
    ∧ (getNextCalls PtrEnumerator.set.getNext (o.length + 1) (ContainerPtrEnumerator.new o)).1
      = o.map Fetched.handle ++ [Fetched.pastEnd]
    ∧ (getNextCalls PtrEnumerator.map.getNext (m.length + 1) (ContainerPtrEnumerator.new m)).1
      = m.map (fun en => Fetched.handle en.second) ++ [Fetched.pastEnd]
    ∧ (getNextCalls PtrEnumerator.unordered_map.getNext (m.length + 1)
        (ContainerPtrEnumerator.new m)).1
      = m.map (fun en => Fetched.handle en.second) ++ [Fetched.pastEnd] := by
  refine ⟨?_, ?_, ?_, ?_, ?_, ?_⟩
  · rw [getNextCalls_add, getNextCalls_all id _ vector_getNext_step o]
    simp only []
    rw [vector_getNext_at_end]
    rfl
  · exact getNextCalls_past_end id PtrEnumerator.deque.getNext (fun _ => rfl) o
  · exact getNextCalls_past_end id PtrEnumerator.list.getNext (fun _ => rfl) o
  · exact getNextCalls_past_end id PtrEnumerator.set.getNext (fun _ => rfl) o
  · exact getNextCalls_past_end MapEntry.second PtrEnumerator.map.getNext (fun _ => rfl) m
  · exact getNextCalls_past_end MapEntry.second PtrEnumerator.unordered_map.getNext
      (fun _ => rfl) m

/-- C25: copy assignment of a handle to itself leaves its `meta` as it was; move
assignment of a handle to itself leaves its `meta` null, whatever header it
referenced. -/
theorem C25_self_assignment (s : Heap) (h : Nat) :
    (GcPtr.assign s h h).metaOf h = s.metaOf h
    ∧ (GcPtr.moveAssign s h h).metaOf h = 0 := by
  constructor
  · unfold GcPtr.assign
    rw [metaOf_reset, if_pos rfl]
    by_cases hlt : h < s.ptrs.length
    · rw [if_pos hlt]
    · rw [if_neg hlt]
      unfold Heap.metaOf
      rw [List.getElem?_eq_none (by omega)]
  · unfold GcPtr.moveAssign
    rw [metaOf_assignNull, if_pos rfl]

/-- Witness for C25: the root handle 0 of `twoObjectHeap` references header 1;
it still does after `h = h`, and is null after `h = std::move(h)`. -/
theorem C25_self_assignment_witness :
    twoObjectHeap.metaOf 0 = 1
    ∧ (GcPtr.assign twoObjectHeap 0 0).metaOf 0 = 1
    ∧ (GcPtr.moveAssign twoObjectHeap 0 0).metaOf 0 = 0 :=
  ⟨by decide, (C25_self_assignment twoObjectHeap 0).1, (C25_self_assignment twoObjectHeap 0).2⟩

end tgc2
